import Mathlib

/-!
# lua-resp: the RESP codec of `src/resp.c`

A shallow embedding of the decoder (`str2num`, `geteol`, the four type
decoders and the driver `decode_lua`) and of the encoder (`encode2string`,
`encode2value`, `encode2array`, `encode_lua`, `encode2array_lua`).

Modelling conventions.

* A byte is its numeric value (a `Nat`); a buffer is a `List Nat`.  Every
  statement below holds for all lists, in particular for lists of values
  below 256.
* A Lua string of length `len` is followed by a NUL byte, so `msg[len]` reads
  as `0`; `byteAt` models `msg[i]` that way.
* `ssize_t` results are `Except Int _`: `.error code` carries the value that
  the C function returns when it is `< 1`.
* The Lua values handled by the codec are the constructors of `Value`; a Lua
  table is the list of its array part.  Non-integral numbers are left out:
  their text is produced by the floating-point formatting of the C library.
* `%d` of `lua_pushfstring` reads a C `int`: of a 64-bit integer argument it
  prints the low 32 bits (`vaArgInt`).
* The frames of the decode driver are a list; the Lua stack that the C code
  uses for them is counted separately (`stackTop`, `stackAfter`).
-/

namespace Resp

/-! ## Constants -/

/-- Status `RESP_EAGAIN` (`NeedMoreBytes`). -/
def RESP_EAGAIN : Int := -1

/-- Status `RESP_EILSEQ` (`MalformedSequence`). -/
def RESP_EILSEQ : Int := -2

/-- Cap `BSTR_MAXLEN`, 512 MB. -/
def BSTR_MAXLEN : Nat := 536870912

/-- Byte `'\r'`. -/
def CR : Nat := 13

/-- Byte `'\n'`. -/
def LF : Nat := 10

/-- Read `msg[i]`; the byte after the last one is the terminating NUL. -/
def byteAt (msg : List Nat) (i : Nat) : Nat := msg.getD i 0

/-! ## The C library's `strtoll` in base 10 -/

/-- C `isspace` in the "C" locale: space, `\t`, `\n`, `\v`, `\f`, `\r`. -/
def isspace (c : Nat) : Bool := c == 32 || (decide (9 ≤ c) && decide (c ≤ 13))

/-- C `isdigit`. -/
def isdigit (c : Nat) : Bool := decide (48 ≤ c) && decide (c ≤ 57)

/-- Largest `int64_t`. -/
def LLONG_MAX : Int := 9223372036854775807

/-- Smallest `int64_t`. -/
def LLONG_MIN : Int := -9223372036854775808

/-- Number spelled by a run of decimal digit bytes. -/
def digitsValue (ds : List Nat) : Nat := ds.foldl (fun acc c => acc * 10 + (c - 48)) 0

/-- What `strtoll( s, &endptr, 10 )` reports: the converted value, whether
`errno` became `ERANGE`, and `endptr - s`. -/
structure StrtollResult where
  value : Int
  erange : Bool
  consumed : Nat
deriving DecidableEq, Repr

/-- Length of the sign of a subject sequence: one for a leading `-` or `+`. -/
def signLen (s : List Nat) : Nat :=
  match s with
  | 45 :: _ => 1
  | 43 :: _ => 1
  | _ => 0

/-- Libc `strtoll( s, &endptr, 10 )`: skip white space, take an optional sign
and the longest run of digits.  With no digit nothing is converted and
`endptr = s`; a value outside `int64_t` is clamped and sets `ERANGE`. -/
def strtoll (s : List Nat) : StrtollResult :=
  let ws := s.takeWhile isspace
  let s1 := s.dropWhile isspace
  let ds := (s1.drop (signLen s1)).takeWhile isdigit
  if ds = [] then ⟨0, false, 0⟩
  else
    let v : Int := if s1.head? = some 45 then -(digitsValue ds : Int) else (digitsValue ds : Int)
    let n := ws.length + signLen s1 + ds.length
    if v > LLONG_MAX then ⟨LLONG_MAX, true, n⟩
    else if v < LLONG_MIN then ⟨LLONG_MIN, true, n⟩
    else ⟨v, false, n⟩

/-! ## Scanners -/

/-- Function `str2num( msg, head, &num )`: `.ok (num, cur)` is the C result
`cur = head + 2 > 0` together with `*num`. -/
def str2num (msg : List Nat) (head : Nat) : Except Int (Int × Nat) :=
  let r := strtoll (msg.drop head)
  if r.erange then .error RESP_EILSEQ
  else
    let head1 :=
      if r.consumed = 0 then
        (if byteAt msg head = 45 ∨ byteAt msg head = 43 then head + 1 else head)
      else head + r.consumed
    if byteAt msg head1 = CR then
      if byteAt msg (head1 + 1) = LF then .ok (r.value, head1 + 2)
      else if byteAt msg (head1 + 1) = 0 then .error RESP_EAGAIN
      else .error RESP_EILSEQ
    else if byteAt msg head1 = 0 then .error RESP_EAGAIN
    else .error RESP_EILSEQ

/-- Loop of `geteol` over the bytes `msg[cur .. len)`, given as a list. -/
def geteolFrom : List Nat → Nat → Except Int Nat
  | [], _ => .error RESP_EAGAIN
  | c :: rest, cur =>
    if c = CR then
      if rest.headD 0 = LF then .ok cur
      else if rest.headD 0 = 0 then .error RESP_EAGAIN
      else .error RESP_EILSEQ
    else if c = LF then .error RESP_EILSEQ
    else geteolFrom rest (cur + 1)

/-- Function `geteol( msg, len, cur )`. -/
def geteol (msg : List Nat) (cur : Nat) : Except Int Nat :=
  geteolFrom (msg.drop cur) cur

/-! ## Values -/

/-- Lua values seen by the codec. `other` stands for a value of any further
Lua type (function, userdata, thread); its flag tells whether the value sits
at index 1 of the Lua stack, as the first argument of `encode` does.  The
error message of `encode2value` depends on nothing else: it does not name the
type of the value. -/
inductive Value where
  | nil : Value
  | boolean (b : Bool) : Value
  | integer (n : Int) : Value
  | string (s : List Nat) : Value
  | table (xs : List Value) : Value
  | other (first : Bool) : Value

mutual
/-- Decision procedure for equality of values. -/
def Value.decEq : (a b : Value) → Decidable (a = b)
  | .nil, .nil => isTrue rfl
  | .boolean a, .boolean b => if h : a = b then isTrue (by rw [h]) else isFalse (by intro e; cases e; exact h rfl)
  | .integer a, .integer b => if h : a = b then isTrue (by rw [h]) else isFalse (by intro e; cases e; exact h rfl)
  | .string a, .string b => if h : a = b then isTrue (by rw [h]) else isFalse (by intro e; cases e; exact h rfl)
  | .other a, .other b => if h : a = b then isTrue (by rw [h]) else isFalse (by intro e; cases e; exact h rfl)
  | .table a, .table b =>
    match Value.decEqList a b with
    | isTrue h => isTrue (by rw [h])
    | isFalse h => isFalse (by intro e; cases e; exact h rfl)
  | .nil, .boolean _ | .nil, .integer _ | .nil, .string _ | .nil, .table _ | .nil, .other _ => isFalse (by intro e; cases e)
  | .boolean _, .nil | .boolean _, .integer _ | .boolean _, .string _ | .boolean _, .table _ | .boolean _, .other _ => isFalse (by intro e; cases e)
  | .integer _, .nil | .integer _, .boolean _ | .integer _, .string _ | .integer _, .table _ | .integer _, .other _ => isFalse (by intro e; cases e)
  | .string _, .nil | .string _, .boolean _ | .string _, .integer _ | .string _, .table _ | .string _, .other _ => isFalse (by intro e; cases e)
  | .table _, .nil | .table _, .boolean _ | .table _, .integer _ | .table _, .string _ | .table _, .other _ => isFalse (by intro e; cases e)
  | .other _, .nil | .other _, .boolean _ | .other _, .integer _ | .other _, .string _ | .other _, .table _ => isFalse (by intro e; cases e)
/-- Decision procedure for equality of lists of values. -/
def Value.decEqList : (a b : List Value) → Decidable (a = b)
  | [], [] => isTrue rfl
  | [], _ :: _ => isFalse (by intro e; cases e)
  | _ :: _, [] => isFalse (by intro e; cases e)
  | x :: xs, y :: ys =>
    match Value.decEq x y, Value.decEqList xs ys with
    | isTrue h1, isTrue h2 => isTrue (by rw [h1, h2])
    | isFalse h1, _ => isFalse (by intro e; cases e; exact h1 rfl)
    | _, isFalse h2 => isFalse (by intro e; cases e; exact h2 rfl)
end

instance : DecidableEq Value := Value.decEq

deriving instance DecidableEq for Except

/-! ## Type decoders -/

/-- Function `decode2string`: the bytes `msg[head .. cur)` up to the CR found
by `geteol`.  A result `cur = 0` is handed back as the code `0`. -/
def decode2string (msg : List Nat) (head : Nat) : Except Int (Value × Nat) :=
  match geteol msg head with
  | .ok cur =>
    if cur > 0 then .ok (Value.string ((msg.drop head).take (cur - head)), cur + 2)
    else .error 0
  | .error code => .error code

/-- Function `decode2integer`. -/
def decode2integer (msg : List Nat) (head : Nat) : Except Int (Value × Nat) :=
  match str2num msg (head + 1) with
  | .ok (num, cur) => .ok (Value.integer num, cur)
  | .error code => .error code

/-- Function `decode2bulkstring`.  The test `( len - cur ) >= ( nbyte + 2 )`
compares a `size_t` with an `int64_t`, hence both sides modulo `2^64`. -/
def decode2bulkstring (msg : List Nat) (head : Nat) : Except Int (Value × Nat) :=
  match str2num msg (head + 1) with
  | .ok (nbyte, cur) =>
    if nbyte ≥ 0 then
      if ((msg.length : Int) - (cur : Int)) % 18446744073709551616
          ≥ (nbyte + 2) % 18446744073709551616 then
        if byteAt msg (cur + nbyte.toNat) = CR ∧ byteAt msg (cur + nbyte.toNat + 1) = LF then
          .ok (Value.string ((msg.drop cur).take nbyte.toNat), cur + nbyte.toNat + 2)
        else .error RESP_EILSEQ
      else .error RESP_EAGAIN
    else if nbyte = -1 then .ok (Value.nil, cur)
    else .error RESP_EILSEQ
  | .error code => .error code

/-- Function `decode2array`: the value pushed, the cursor and `*narr`. -/
def decode2array (msg : List Nat) (head : Nat) : Except Int (Value × Nat × Int) :=
  match str2num msg (head + 1) with
  | .ok (narr, cur) =>
    if narr ≥ 0 then .ok (Value.table [], cur, narr)
    else if narr = -1 then .ok (Value.nil, cur, narr)
    else .error RESP_EILSEQ
  | .error code => .error code

/-! ## Decode driver -/

/-- Record `arraylist_t` together with the table under construction, which
sits right below the frame on the Lua stack; `prev` is the tail of the list
of frames. -/
structure arraylist_t where
  len : Int
  idx : Int
  tbl : List Value

/-- Result of `decode_lua`: three values on success, one status code else. -/
inductive DecodeOutcome where
  | done (value : Value) (nextOffset : Nat) (typeTag : Nat) : DecodeOutcome
  | error (code : Int) : DecodeOutcome
deriving DecidableEq

/-- Outcome of one pass through the `switch` at `PARSE_ELEMENT`. -/
inductive Parsed where
  | failed (code : Int) : Parsed
  | value (v : Value) (head : Nat) : Parsed
  | array (narr : Int) (head : Nat) : Parsed

/-- The `switch( msg[head] )` of `decode_lua`. `value` is a `break` with the
decoded value on top of the Lua stack, `array` the push of a new frame. -/
def parseElement (msg : List Nat) (head : Nat) : Parsed :=
  if byteAt msg head = 0 then .failed RESP_EAGAIN
  else if byteAt msg head = 43 then
    match decode2string msg (head + 1) with
    | .ok (v, cur) => .value v cur
    | .error code => .failed code
  else if byteAt msg head = 45 then
    match decode2string msg head with
    | .ok (v, cur) => .value v cur
    | .error code => .failed code
  else if byteAt msg head = 58 then
    match decode2integer msg head with
    | .ok (v, cur) => .value v cur
    | .error code => .failed code
  else if byteAt msg head = 36 then
    match decode2bulkstring msg head with
    | .ok (v, cur) => .value v cur
    | .error code => .failed code
  else if byteAt msg head = 42 then
    match decode2array msg head with
    | .ok (v, cur, narr) => if narr > 0 then .array narr cur else .value v cur
    | .error code => .failed code
  else .failed RESP_EILSEQ

/-- The `while( arr )` loop: store the value on top of the Lua stack into the
innermost array.  `.inl` is the `goto PARSE_ELEMENT` with the frames left,
`.inr` is the exit of the loop with the finished top-level value. -/
def storeLoop : List arraylist_t → Value → List arraylist_t ⊕ Value
  | [], v => .inr v
  | f :: prev, v =>
    if f.idx + 1 < f.len then .inl (⟨f.len, f.idx + 1, f.tbl ++ [v]⟩ :: prev)
    else storeLoop prev (Value.table (f.tbl ++ [v]))

/-- The body of `decode_lua` from `PARSE_ELEMENT` on; each pass through the
label uses one unit of `fuel`, and `none` means the fuel ran out.  The frames are a
list; the values the C code keeps on the Lua stack for them are counted by `stackTop`
and `stackAfter` below. -/
def decodeLoop (msg : List Nat) (type : Nat) : Nat → Nat → List arraylist_t → Option DecodeOutcome
  | 0, _, _ => none
  | fuel + 1, head, arr =>
    match parseElement msg head with
    | .failed code => some (.error code)
    | .array narr cur => decodeLoop msg type fuel cur (⟨narr, 0, []⟩ :: arr)
    | .value v cur =>
      match storeLoop arr v with
      | .inl arr1 => decodeLoop msg type fuel cur arr1
      | .inr top => some (.done top cur type)

/-- Function `decode_lua( msg, head )`.  Every pass through `PARSE_ELEMENT`
but a failing one moves the cursor forward, so `len + 1` passes suffice. -/
def decode_lua (msg : List Nat) (head : Nat) : Option DecodeOutcome :=
  decodeLoop msg (byteAt msg head) (msg.length + 1) head []

/-! ## Encoder -/

/-- Decimal digits of `n`, most significant first; `fuel` bounds their number. -/
def decDigits : Nat → Nat → List Nat
  | 0, _ => []
  | fuel + 1, n => if n < 10 then [48 + n] else decDigits fuel (n / 10) ++ [48 + n % 10]

/-- Text of `%d` for a non-negative number. -/
def decimalNat (n : Nat) : List Nat := decDigits (n + 1) n

/-- Text of `%d` for the number `i`. -/
def decimal (i : Int) : List Nat :=
  if i < 0 then 45 :: decimalNat i.natAbs else decimalNat i.natAbs

/-- Largest C `int`. -/
def INT_MAX : Int := 2147483647

/-- Smallest C `int`. -/
def INT_MIN : Int := -2147483648

/-- The number that `%d` of `lua_pushfstring` prints for a 64-bit integer argument.  The
format reads its argument with `va_arg( argp, int )`; of the 64-bit `lua_Integer` passed by
`encode2number` that is the low 32 bits, taken as a signed `int`. -/
def vaArgInt (i : Int) : Int := (i + 2147483648) % 4294967296 - 2147483648

/-- Function `encode2string`.  `*str` of the empty string is the NUL byte. -/
def encode2string (str : List Nat) : Except String (List Nat) :=
  if str.length > BSTR_MAXLEN then .error "string length must be up to 512 MB"
  else
    let sign : Bool := decide (byteAt str 0 = 43) || decide (byteAt str 0 = 45)
    let cur : Nat := if sign then 1 else 0
    let bulk : Bool := !(sign && decide (cur < str.length))
    if (str.drop cur).any (fun c => decide (c = CR) || decide (c = LF)) then
      .error "string cannot containe a CR or LF"
    else
      .ok ((if bulk then 36 :: decimalNat str.length ++ [CR, LF] else []) ++ str ++ [CR, LF])

/-- Function `encode2number` for a number equal to its integer cast `iv`: the branch
`lua_pushfstring( stack, ":%d\r\n", iv )`, whose `%d` reads an `int`.  The branch `+%f` of a
non-integral number is not modelled. -/
def encode2number (iv : Int) : List Nat := 58 :: decimal (vaArgInt iv) ++ [CR, LF]

/-- Function `encode2boolean`. -/
def encode2boolean (b : Bool) : List Nat := if b then [58, 49, CR, LF] else [58, 48, CR, LF]

/-- Function `encode2nil`. -/
def encode2nil : List Nat := [36, 45, 49, CR, LF]

mutual
/-- Function `encode2value`; the `LUA_TTABLE` case is the body of
`encode2array`: the header `*<narr>\r\n`, then the loop over the elements.
The `default` case calls `lua_settop( L, 0 )` and `lua_pushnil( L )` before
`lua_typename( L, lua_type( L, idx ) )`, so its message names `nil` for a
value at index 1 and `no value` for a value at any other index. -/
def encode2value : Value → Except String (List Nat)
  | .nil => .ok encode2nil
  | .boolean b => .ok (encode2boolean b)
  | .string s => encode2string s
  | .integer iv => .ok (encode2number iv)
  | .table xs =>
    match encode2values xs with
    | .ok bytes => .ok (42 :: decimalNat xs.length ++ [CR, LF] ++ bytes)
    | .error err => .error err
  | .other first =>
    .error (if first then "could not encode a nil value" else "could not encode a no value value")
/-- The loop `for(; i <= narr; i++ )` over the elements in order: the first
element that fails ends the loop with its error. -/
def encode2values : List Value → Except String (List Nat)
  | [] => .ok []
  | x :: xs =>
    match encode2value x with
    | .error err => .error err
    | .ok b =>
      match encode2values xs with
      | .error err => .error err
      | .ok bytes => .ok (b ++ bytes)
end

/-- Function `encode2array` on a table with array part `xs`. -/
def encode2array (xs : List Value) : Except String (List Nat) := encode2value (.table xs)

/-- Function `encode2array_lua` on its argument list. -/
def encode2array_lua (args : List Value) : Except String (List Nat) :=
  if args.length = 0 then .ok []
  else
    match encode2values args with
    | .ok bytes => .ok (42 :: decimalNat args.length ++ [CR, LF] ++ bytes)
    | .error err => .error err

/-- Function `encode_lua` on its argument list. -/
def encode_lua (args : List Value) : Except String (List Nat) :=
  match args with
  | [] => .ok []
  | [v] => encode2value v
  | _ =>
    match encode2values args with
    | .ok bytes => .ok (42 :: decimalNat args.length ++ [CR, LF] ++ bytes)
    | .error err => .error err

/-! ## Auxiliary definitions for the proofs -/

/-- Shift a scanner result by the offset at which the scan began. -/
def shiftNum (head : Nat) : Except Int (Int × Nat) → Except Int (Int × Nat)
  | .ok (v, cur) => .ok (v, head + cur)
  | .error code => .error code


/-- Shift a line-scanner result by the offset at which the scan began. -/
def shiftPos (head : Nat) : Except Int Nat → Except Int Nat
  | .ok cur => .ok (head + cur)
  | .error code => .error code

/-- Shift the cursor of a `Parsed` by an offset. -/
def Parsed.shift (head : Nat) : Parsed → Parsed
  | .failed code => .failed code
  | .value v cur => .value v (head + cur)
  | .array narr cur => .array narr (head + cur)

/-- Position `head` holds after the `if`/`else` that follows `strtoll`. -/
def numEnd (msg : List Nat) (head : Nat) : Nat :=
  if (strtoll (msg.drop head)).consumed = 0 then
    (if byteAt msg head = 45 ∨ byteAt msg head = 43 then head + 1 else head)
  else head + (strtoll (msg.drop head)).consumed

/-- What the driver does once a value `v` is complete with the cursor at `head`: the
`while( arr )` loop, then either the next pass or the three results. -/
def resume (msg : List Nat) (type fuel head : Nat) (arr : List arraylist_t) (v : Value) :
    Option DecodeOutcome :=
  match storeLoop arr v with
  | .inl arr1 => decodeLoop msg type fuel head arr1
  | .inr top => some (.done top head type)

mutual
/-- Number of passes through `PARSE_ELEMENT` that decoding the encoding of a value takes. -/
def passes : Value → Nat
  | .table xs => passesList xs + 1
  | _ => 1
/-- Sum of `passes` over a list of values. -/
def passesList : List Value → Nat
  | [] => 0
  | x :: xs => passes x + passesList xs
end

mutual
/-- The value that `decode` gives back for the encoding of `v`: a boolean comes back as the
integer 1 or 0, and a string that is `+` followed by at least one byte comes back without its
leading `+`; everything else is unchanged. -/
def decoded : Value → Value
  | .nil => .nil
  | .boolean b => .integer (if b then 1 else 0)
  | .integer n => .integer n
  | .string s => .string (if byteAt s 0 = 43 ∧ 1 < s.length then s.drop 1 else s)
  | .table xs => .table (decodedList xs)
  | .other first => .other first
/-- Map `decoded` over the elements of a table. -/
def decodedList : List Value → List Value
  | [] => []
  | x :: xs => decoded x :: decodedList xs
end

mutual
/-- Every integer inside the value is in the range of a C `int`, which `%d` prints in full. -/
def intOnly : Value → Bool
  | .integer n => decide (INT_MIN ≤ n) && decide (n ≤ INT_MAX)
  | .table xs => intOnlyList xs
  | _ => true
/-- Every integer inside the values is in the range of a C `int`. -/
def intOnlyList : List Value → Bool
  | [] => true
  | x :: xs => intOnly x && intOnlyList xs
end

mutual
/-- The value holds no boolean and no string that is `+` followed by at least one byte. -/
def plain : Value → Bool
  | .boolean _ => false
  | .string s => !(decide (byteAt s 0 = 43) && decide (1 < s.length))
  | .table xs => plainList xs
  | _ => true
/-- All the values are `plain`. -/
def plainList : List Value → Bool
  | [] => true
  | x :: xs => plain x && plainList xs
end

/-- A byte that `strtoll` neither skips nor takes: no white space, no digit, no sign. -/
def inert (c : Nat) : Prop := isspace c = false ∧ isdigit c = false ∧ c ≠ 43 ∧ c ≠ 45

/-- A value wrapped in `d` one-element tables. -/
def nestedValue : Nat → Value → Value
  | 0, v => v
  | d + 1, v => .table [nestedValue d v]

/-- The bytes of `d` copies of the array header `*1\r\n`. -/
def nestedHeaders : Nat → List Nat
  | 0 => []
  | d + 1 => 42 :: 49 :: CR :: LF :: nestedHeaders d

/-- The states (cursor and frames) in which `decodeLoop` passes the label `PARSE_ELEMENT`, in
order: the same recursion as `decodeLoop`, recording the state of each pass. -/
def driverStates (msg : List Nat) : Nat → Nat → List arraylist_t → List (Nat × List arraylist_t)
  | 0, _, _ => []
  | fuel + 1, head, arr =>
    (head, arr) ::
      match parseElement msg head with
      | .failed _ => []
      | .array narr cur => driverStates msg fuel cur (⟨narr, 0, []⟩ :: arr)
      | .value v cur =>
        match storeLoop arr v with
        | .inl arr1 => driverStates msg fuel cur arr1
        | .inr _ => []

/-- Whether a pass through the `switch` ended in one of the `return 1` branches. -/
def Parsed.isFailed : Parsed → Bool
  | .failed _ => true
  | _ => false

/-- Every frame has `0 ≤ idx < len`. -/
def framesOk (arr : List arraylist_t) : Prop := ∀ f ∈ arr, 0 ≤ f.idx ∧ f.idx < f.len

/-- Whether the pass of the driver in state `st` parses an element (a value or an array
header) rather than returning a status. -/
def elementPass (msg : List Nat) (st : Nat × List arraylist_t) : Bool :=
  !(parseElement msg st.1).isFailed

mutual
/-- The values of the restricted round trip: nil, `int64_t` integers, strings without CR and
LF, of at most 536,870,912 bytes, that are not `+` followed by at least one byte, and tables
of such values. -/
def restricted : Value → Bool
  | .nil => true
  | .boolean _ => false
  | .integer n => decide (LLONG_MIN ≤ n) && decide (n ≤ LLONG_MAX)
  | .string s =>
    !(s.any fun c => decide (c = CR) || decide (c = LF)) && decide (s.length ≤ BSTR_MAXLEN) &&
      !(decide (byteAt s 0 = 43) && decide (1 < s.length))
  | .table xs => restrictedList xs
  | .other _ => false
/-- All the values are `restricted`. -/
def restrictedList : List Value → Bool
  | [] => true
  | x :: xs => restricted x && restrictedList xs
end

mutual
/-- The recursive decoder of claim C17, following its words: dispatch on the sigil with the
same type decoders (the `switch` of `parseElement`); for an array header with count `n > 0`
call the decoder `n` times in sequence.  `fuel` bounds the depth of the calls. -/
def rdecode (msg : List Nat) : Nat → Nat → Option (Except Int (Value × Nat))
  | 0, _ => none
  | fuel + 1, head =>
    match parseElement msg head with
    | .failed code => some (.error code)
    | .value v cur => some (.ok (v, cur))
    | .array narr cur => rdecodeElems msg fuel narr.toNat cur []
/-- Decode `k` more elements in sequence, each at the offset returned by the previous call;
fail with the first error, else return the array of the results and the last offset. -/
def rdecodeElems (msg : List Nat) : Nat → Nat → Nat → List Value →
    Option (Except Int (Value × Nat))
  | _, 0, head, acc => some (.ok (.table acc, head))
  | 0, _ + 1, _, _ => none
  | fuel + 1, k + 1, head, acc =>
    match rdecode msg fuel head with
    | none => none
    | some (.error code) => some (.error code)
    | some (.ok (v, cur)) => rdecodeElems msg fuel k cur (acc ++ [v])
end

/-- Lua's `LUA_MINSTACK`: the number of stack slots, beyond its arguments, that a C function
called by Lua may use without calling `lua_checkstack`. -/
def LUA_MINSTACK : Nat := 20

/-- Number of values on the Lua stack when `decode_lua` passes `PARSE_ELEMENT` with the
frames `arr`: the message and the nil pushed after `lua_settop( L, 1 )`, and for every frame
the table of `lua_createtable` and the userdata of `lua_newuserdata`. -/
def stackTop (arr : List arraylist_t) : Nat := 2 + 2 * arr.length

/-- Number of values on the Lua stack right after the pass of the driver in state `st`: a
decoded value is one push, a new frame is two (its table and its userdata), and a failing
pass leaves the status code alone.  `decode_lua` never calls `lua_checkstack`. -/
def stackAfter (msg : List Nat) (st : Nat × List arraylist_t) : Nat :=
  match parseElement msg st.1 with
  | .failed _ => 1
  | .value _ _ => stackTop st.2 + 1
  | .array _ _ => stackTop st.2 + 2

/-- The bytes of `n` elements `:0\r\n`. -/
def fillers : Nat → List Nat
  | 0 => []
  | n + 1 => 58 :: 48 :: CR :: LF :: fillers n

/-- An integer in the range of a C `int` is read back whole by `va_arg( argp, int )`. -/
theorem vaArgInt_of_int (n : Int) (h1 : INT_MIN ≤ n) (h2 : n ≤ INT_MAX) : vaArgInt n = n := by
  simp only [INT_MIN, INT_MAX] at h1 h2
  unfold vaArgInt
  omega

/-- What `va_arg( argp, int )` reads is in the range of a C `int`. -/
theorem vaArgInt_range (n : Int) : INT_MIN ≤ vaArgInt n ∧ vaArgInt n ≤ INT_MAX := by
  simp only [INT_MIN, INT_MAX]
  unfold vaArgInt
  omega

theorem isdigit_not_space {c : Nat} (h : isdigit c = true) : isspace c = false := by
  simp only [isdigit, isspace, Bool.and_eq_true, decide_eq_true_eq, beq_iff_eq] at *
  simp only [Bool.or_eq_false_iff, Bool.and_eq_false_iff, decide_eq_false_iff_not, beq_eq_false_iff_ne]
  omega

theorem signLen_digit {c : Nat} (h : isdigit c = true) (s : List Nat) : signLen (c :: s) = 0 := by
  simp only [isdigit, Bool.and_eq_true, decide_eq_true_eq] at h
  unfold signLen
  split
  · rename_i heq; simp at heq; omega
  · rename_i heq; simp at heq; omega
  · rfl

theorem takeWhile_digits_append (ds rest : List Nat) (hds : ∀ c ∈ ds, isdigit c = true)
    (hrest : rest.takeWhile isdigit = []) : (ds ++ rest).takeWhile isdigit = ds := by
  induction ds with
  | nil => simpa using hrest
  | cons d ds ih =>
    have hd : isdigit d = true := hds d (by simp)
    simp only [List.cons_append, List.takeWhile_cons, hd, if_true]
    rw [ih (fun c hc => hds c (by simp [hc]))]

/-- The value `strtoll` reports for a sign-less run of digits. -/
theorem strtoll_digits (ds rest : List Nat) (hne : ds ≠ []) (hds : ∀ c ∈ ds, isdigit c = true)
    (hrest : rest.takeWhile isdigit = []) :
    strtoll (ds ++ rest) =
      if (digitsValue ds : Int) > LLONG_MAX then ⟨LLONG_MAX, true, ds.length⟩
      else ⟨(digitsValue ds : Int), false, ds.length⟩ := by
  obtain ⟨d, ds', rfl⟩ := List.exists_cons_of_ne_nil hne
  have hd : isdigit d = true := hds d (by simp)
  have hsp : isspace d = false := isdigit_not_space hd
  have h45 : d ≠ 45 := by
    simp only [isdigit, Bool.and_eq_true, decide_eq_true_eq] at hd; omega
  have htw : ((d :: ds') ++ rest).takeWhile isspace = [] := by simp [hsp]
  have hdw : ((d :: ds') ++ rest).dropWhile isspace = (d :: ds') ++ rest := by
    simp [List.dropWhile_cons, hsp]
  have hsl : signLen ((d :: ds') ++ rest) = 0 := signLen_digit hd _
  have htd := takeWhile_digits_append (d :: ds') rest hds hrest
  unfold strtoll
  simp only [htw, hdw, hsl, List.drop_zero, htd]
  have hneg : (digitsValue (d :: ds') : Int) ≥ 0 := Int.ofNat_nonneg _
  simp [h45, LLONG_MIN, LLONG_MAX] at *
  split
  · rfl
  · rw [if_neg (by omega)]


theorem strtoll_minus (ds rest : List Nat) (hne : ds ≠ []) (hds : ∀ c ∈ ds, isdigit c = true)
    (hrest : rest.takeWhile isdigit = []) :
    strtoll (45 :: (ds ++ rest)) =
      if -(digitsValue ds : Int) < LLONG_MIN then ⟨LLONG_MIN, true, ds.length + 1⟩
      else ⟨-(digitsValue ds : Int), false, ds.length + 1⟩ := by
  have htd := takeWhile_digits_append ds rest hds hrest
  have hsp : isspace 45 = false := by decide
  have htw : (45 :: (ds ++ rest)).takeWhile isspace = [] := by simp [hsp]
  have hdw : (45 :: (ds ++ rest)).dropWhile isspace = 45 :: (ds ++ rest) := by
    simp [List.dropWhile_cons, hsp]
  have hsl : signLen (45 :: (ds ++ rest)) = 1 := rfl
  unfold strtoll
  simp only [htw, hdw, hsl, List.drop_succ_cons, List.drop_zero, htd, List.head?_cons, if_neg hne, if_true, List.length_nil, Nat.zero_add]
  have hneg : (digitsValue ds : Int) ≥ 0 := Int.ofNat_nonneg _
  have h1 : ¬ (-(digitsValue ds : Int) > LLONG_MAX) := by simp only [LLONG_MAX]; omega
  rw [if_neg h1, Nat.add_comm]

theorem byteAt_eq_head_drop (msg : List Nat) (i : Nat) : byteAt msg i = (msg.drop i).headD 0 := by
  induction msg generalizing i with
  | nil => simp [byteAt]
  | cons c x ih =>
    cases i with
    | zero => simp [byteAt]
    | succ i => simp [byteAt]

theorem byteAt_drop (msg : List Nat) (head k : Nat) :
    byteAt (msg.drop head) k = byteAt msg (head + k) := by
  rw [byteAt_eq_head_drop, byteAt_eq_head_drop, List.drop_drop, Nat.add_comm]

theorem str2num_drop (msg : List Nat) (head : Nat) :
    str2num msg head = shiftNum head (str2num (msg.drop head) 0) := by
  unfold str2num
  simp only [List.drop_zero, byteAt_drop, Nat.add_zero, Nat.zero_add]
  split
  · rfl
  · split <;> split <;> (try split) <;> (try split) <;> (try split) <;> simp_all [shiftNum, byteAt_drop, Nat.add_assoc]

theorem digitsValue_append_single (ds : List Nat) (c : Nat) :
    digitsValue (ds ++ [c]) = digitsValue ds * 10 + (c - 48) := by
  simp [digitsValue, List.foldl_append]

theorem decDigits_spec (fuel n : Nat) (h : n < fuel) :
    decDigits fuel n ≠ [] ∧ (∀ c ∈ decDigits fuel n, isdigit c = true) ∧
      digitsValue (decDigits fuel n) = n := by
  induction fuel generalizing n with
  | zero => omega
  | succ fuel ih =>
    unfold decDigits
    by_cases hn : n < 10
    · rw [if_pos hn]
      refine ⟨by simp, ?_, ?_⟩
      · intro c hc
        simp only [List.mem_singleton] at hc
        subst hc
        simp only [isdigit, Bool.and_eq_true, decide_eq_true_eq]
        omega
      · simp [digitsValue]
    · rw [if_neg hn]
      obtain ⟨_, h2, h3⟩ := ih (n / 10) (by omega)
      refine ⟨by simp, ?_, ?_⟩
      · intro c hc
        rcases List.mem_append.mp hc with hc | hc
        · exact h2 c hc
        · simp only [List.mem_singleton] at hc
          subst hc
          simp only [isdigit, Bool.and_eq_true, decide_eq_true_eq]
          omega
      · rw [digitsValue_append_single, h3]
        omega

theorem decimalNat_ne_nil (n : Nat) : decimalNat n ≠ [] := (decDigits_spec (n + 1) n (by omega)).1

theorem decimalNat_digits (n : Nat) : ∀ c ∈ decimalNat n, isdigit c = true :=
  (decDigits_spec (n + 1) n (by omega)).2.1

theorem digitsValue_decimalNat (n : Nat) : digitsValue (decimalNat n) = n :=
  (decDigits_spec (n + 1) n (by omega)).2.2

theorem byteAt_append_right (pre x : List Nat) (i : Nat) :
    byteAt (pre ++ x) (pre.length + i) = byteAt x i := by
  simp [byteAt, List.getD_eq_getElem?_getD, List.getElem?_append_right]

theorem byteAt_append_length (pre x : List Nat) :
    byteAt (pre ++ x) pre.length = byteAt x 0 := by
  simpa using byteAt_append_right pre x 0

theorem byteAt_cons_zero (c : Nat) (x : List Nat) : byteAt (c :: x) 0 = c := by
  simp [byteAt]

theorem byteAt_cons_succ (c : Nat) (x : List Nat) (i : Nat) :
    byteAt (c :: x) (i + 1) = byteAt x i := by
  simp [byteAt]

theorem str2num_of_strtoll (s : List Nat) (v : Int) (n : Nat) (hn : n ≠ 0)
    (h : strtoll s = ⟨v, false, n⟩) (h1 : byteAt s n = CR) (h2 : byteAt s (n + 1) = LF) :
    str2num s 0 = .ok (v, n + 2) := by
  unfold str2num
  simp [h, hn, h1, h2]

theorem takeWhile_isdigit_cr (rest : List Nat) : (CR :: rest).takeWhile isdigit = [] := by
  simp [CR, isdigit]

theorem str2num_digits_line (ds rest : List Nat) (hne : ds ≠ [])
    (hds : ∀ c ∈ ds, isdigit c = true) (hr : (digitsValue ds : Int) ≤ LLONG_MAX) :
    str2num (ds ++ CR :: LF :: rest) 0 = .ok ((digitsValue ds : Int), ds.length + 2) := by
  apply str2num_of_strtoll
  · intro h; exact hne (List.length_eq_zero.mp h)
  · rw [strtoll_digits ds _ hne hds (takeWhile_isdigit_cr _), if_neg (by omega)]
  · rw [byteAt_append_length, byteAt_cons_zero]
  · rw [byteAt_append_right, byteAt_cons_succ, byteAt_cons_zero]

theorem str2num_minus_line (ds rest : List Nat) (hne : ds ≠ [])
    (hds : ∀ c ∈ ds, isdigit c = true) (hr : LLONG_MIN ≤ -(digitsValue ds : Int)) :
    str2num (45 :: (ds ++ CR :: LF :: rest)) 0 = .ok (-(digitsValue ds : Int), ds.length + 3) := by
  apply str2num_of_strtoll _ _ (ds.length + 1)
  · omega
  · rw [strtoll_minus ds _ hne hds (takeWhile_isdigit_cr _), if_neg (by omega)]
  · rw [byteAt_cons_succ, byteAt_append_length, byteAt_cons_zero]
  · rw [byteAt_cons_succ, byteAt_append_right, byteAt_cons_succ, byteAt_cons_zero]

theorem str2num_decimal (n : Int) (rest : List Nat) (h1 : LLONG_MIN ≤ n) (h2 : n ≤ LLONG_MAX) :
    str2num (decimal n ++ CR :: LF :: rest) 0 = .ok (n, (decimal n).length + 2) := by
  unfold decimal
  by_cases hn : n < 0
  · rw [if_pos hn]
    have hv : -((digitsValue (decimalNat n.natAbs) : Nat) : Int) = n := by
      rw [digitsValue_decimalNat]; omega
    have := str2num_minus_line (decimalNat n.natAbs) rest (decimalNat_ne_nil _)
      (decimalNat_digits _) (by rw [hv]; exact h1)
    rw [hv] at this
    simpa using this
  · rw [if_neg hn]
    have hv : ((digitsValue (decimalNat n.natAbs) : Nat) : Int) = n := by
      rw [digitsValue_decimalNat]; omega
    have := str2num_digits_line (decimalNat n.natAbs) rest (decimalNat_ne_nil _)
      (decimalNat_digits _) (by rw [hv]; exact h2)
    rw [hv] at this
    exact this

/-! ## Decoding one element -/

theorem geteolFrom_line (t rest : List Nat) (cur : Nat) (hcr : CR ∉ t) (hlf : LF ∉ t) :
    geteolFrom (t ++ CR :: LF :: rest) cur = .ok (cur + t.length) := by
  induction t generalizing cur with
  | nil => simp [geteolFrom]
  | cons c t ih =>
    have h1 : c ≠ CR := fun h => hcr (by simp [h])
    have h2 : c ≠ LF := fun h => hlf (by simp [h])
    have := ih (cur + 1) (fun h => hcr (by simp [h])) (fun h => hlf (by simp [h]))
    rw [List.cons_append, geteolFrom, if_neg h1, if_neg h2, this, List.length_cons,
      Nat.add_assoc, Nat.add_comm 1]

theorem parseElement_simple (t rest : List Nat) (hcr : CR ∉ t) (hlf : LF ∉ t) :
    parseElement (43 :: (t ++ CR :: LF :: rest)) 0 = .value (.string t) (t.length + 3) := by
  have hg : geteol (43 :: (t ++ CR :: LF :: rest)) 1 = .ok (1 + t.length) := by
    simp [geteol, geteolFrom_line t rest 1 hcr hlf]
  simp [parseElement, byteAt_cons_zero, decode2string, hg]
  omega

theorem parseElement_error (t rest : List Nat) (hcr : CR ∉ t) (hlf : LF ∉ t) :
    parseElement (45 :: (t ++ CR :: LF :: rest)) 0 = .value (.string (45 :: t)) (t.length + 3) := by
  have hg : geteol (45 :: (t ++ CR :: LF :: rest)) 0 = .ok (1 + t.length) := by
    have := geteolFrom_line t rest 1 hcr hlf
    simp [geteol, geteolFrom, CR, LF] at *
    exact this
  simp [parseElement, byteAt_cons_zero, decode2string, hg]
  constructor
  · rw [Nat.add_comm]; simp
  · omega

theorem decode_lua_value (msg : List Nat) (head : Nat) (v : Value) (cur : Nat)
    (h : parseElement msg head = .value v cur) :
    decode_lua msg head = some (.done v cur (byteAt msg head)) := by
  simp [decode_lua, decodeLoop, h, storeLoop]

theorem decode_lua_failed (msg : List Nat) (head : Nat) (code : Int)
    (h : parseElement msg head = .failed code) :
    decode_lua msg head = some (.error code) := by
  simp [decode_lua, decodeLoop, h]

theorem geteolFrom_shift (s : List Nat) (cur : Nat) :
    geteolFrom s cur = shiftPos cur (geteolFrom s 0) := by
  induction s generalizing cur with
  | nil => simp [geteolFrom, shiftPos]
  | cons c s ih =>
    simp only [geteolFrom]
    split
    · split
      · simp [shiftPos]
      · split <;> simp [shiftPos]
    · split
      · simp [shiftPos]
      · rw [ih (cur + 1), ih (0 + 1)]
        cases geteolFrom s 0 <;> simp [shiftPos, Nat.add_assoc]

theorem geteol_drop (msg : List Nat) (head k : Nat) :
    geteol msg (head + k) = shiftPos head (geteol (msg.drop head) k) := by
  unfold geteol
  rw [List.drop_drop, geteolFrom_shift _ (head + k), geteolFrom_shift _ k]
  cases geteolFrom (List.drop (head + k) msg) 0 <;> simp [shiftPos, Nat.add_assoc]

theorem geteolFrom_ge (s : List Nat) (cur c : Nat) (h : geteolFrom s cur = .ok c) : cur ≤ c := by
  induction s generalizing cur with
  | nil => simp [geteolFrom] at h
  | cons b s ih =>
    simp only [geteolFrom] at h
    split at h
    · split at h
      · simp at h; omega
      · split at h <;> simp at h
    · split at h
      · simp at h
      · have := ih (cur + 1) h
        omega

theorem geteol_ge (msg : List Nat) (cur c : Nat) (h : geteol msg cur = .ok c) : cur ≤ c :=
  geteolFrom_ge _ _ _ h

theorem geteol_minus_pos (msg : List Nat) (c : Nat) (h0 : byteAt msg 0 = 45)
    (h : geteol msg 0 = .ok c) : 0 < c := by
  cases msg with
  | nil => simp [geteol, geteolFrom] at h
  | cons b s =>
    rw [byteAt_cons_zero] at h0
    subst h0
    simp only [geteol, List.drop_zero, geteolFrom, CR, LF] at h
    simp at h
    have := geteolFrom_ge _ _ _ h
    omega

theorem decode2string_drop_succ (msg : List Nat) (head : Nat) :
    decode2string msg (head + 1) =
      match decode2string (msg.drop head) 1 with
      | .ok (v, cur) => .ok (v, head + cur)
      | .error code => .error code := by
  unfold decode2string
  rw [geteol_drop]
  cases hg : geteol (List.drop head msg) 1 with
  | error e => simp [shiftPos]
  | ok c =>
    have := geteol_ge _ _ _ hg
    simp only [shiftPos]
    rw [if_pos (by omega), if_pos (by omega)]
    simp only [List.drop_drop, Except.ok.injEq, Prod.mk.injEq, Value.string.injEq]
    constructor
    · congr 1; omega
    · omega

theorem decode2string_drop_minus (msg : List Nat) (head : Nat) (h0 : byteAt msg head = 45) :
    decode2string msg head =
      match decode2string (msg.drop head) 0 with
      | .ok (v, cur) => .ok (v, head + cur)
      | .error code => .error code := by
  unfold decode2string
  have := geteol_drop msg head 0
  rw [Nat.add_zero] at this
  rw [this]
  cases hg : geteol (List.drop head msg) 0 with
  | error e => simp [shiftPos]
  | ok c =>
    have := geteol_minus_pos _ _ (by rw [byteAt_drop]; simpa using h0) hg
    simp only [shiftPos]
    rw [if_pos (by omega), if_pos (by omega)]
    simp only [List.drop_zero, Except.ok.injEq, Prod.mk.injEq, Value.string.injEq]
    constructor
    · congr 1; omega
    · omega

theorem str2num_eq (msg : List Nat) (head : Nat) :
    str2num msg head =
      if (strtoll (msg.drop head)).erange then .error RESP_EILSEQ
      else if byteAt msg (numEnd msg head) = CR then
        if byteAt msg (numEnd msg head + 1) = LF then
          .ok ((strtoll (msg.drop head)).value, numEnd msg head + 2)
        else if byteAt msg (numEnd msg head + 1) = 0 then .error RESP_EAGAIN
        else .error RESP_EILSEQ
      else if byteAt msg (numEnd msg head) = 0 then .error RESP_EAGAIN
      else .error RESP_EILSEQ := rfl

theorem str2num_ok_iff (msg : List Nat) (head : Nat) (v : Int) (cur : Nat) :
    str2num msg head = .ok (v, cur) ↔
      (strtoll (msg.drop head)).erange = false ∧ v = (strtoll (msg.drop head)).value ∧
      cur = numEnd msg head + 2 ∧ byteAt msg (numEnd msg head) = CR ∧
      byteAt msg (numEnd msg head + 1) = LF := by
  rw [str2num_eq]
  simp only [CR, LF]
  by_cases h1 : (strtoll (msg.drop head)).erange = true
  · simp [h1]
  · by_cases h2 : byteAt msg (numEnd msg head) = 13
    · by_cases h3 : byteAt msg (numEnd msg head + 1) = 10
      · simp [h1, h2, h3]
        constructor
        · rintro ⟨rfl, rfl⟩; exact ⟨rfl, rfl⟩
        · rintro ⟨rfl, rfl⟩; exact ⟨rfl, rfl⟩
      · by_cases h4 : byteAt msg (numEnd msg head + 1) = 0 <;> simp [h1, h2, h3, h4]
    · by_cases h4 : byteAt msg (numEnd msg head) = 0 <;> simp [h1, h2, h4]

theorem le_numEnd (msg : List Nat) (head : Nat) : head ≤ numEnd msg head := by
  unfold numEnd
  split
  · split <;> omega
  · omega

theorem byteAt_ne_zero_lt (msg : List Nat) (i : Nat) (h : byteAt msg i ≠ 0) : i < msg.length := by
  by_contra hc
  apply h
  simp only [byteAt]
  exact List.getD_eq_default _ _ (by omega)

theorem str2num_le_length (msg : List Nat) (head : Nat) (v : Int) (cur : Nat)
    (h : str2num msg head = .ok (v, cur)) : cur ≤ msg.length ∧ head + 2 ≤ cur := by
  obtain ⟨_, _, h3, _, h5⟩ := (str2num_ok_iff msg head v cur).mp h
  have := byteAt_ne_zero_lt msg (numEnd msg head + 1) (by rw [h5]; decide)
  have := le_numEnd msg head
  omega

theorem str2num_drop_add (msg : List Nat) (head k : Nat) :
    str2num msg (head + k) = shiftNum head (str2num (msg.drop head) k) := by
  rw [str2num_drop msg (head + k), str2num_drop (msg.drop head) k, List.drop_drop]
  cases str2num (List.drop (head + k) msg) 0 with
  | error e => rfl
  | ok r => obtain ⟨v, c⟩ := r; simp [shiftNum, Nat.add_assoc]

theorem decode2integer_drop (msg : List Nat) (head : Nat) :
    decode2integer msg head =
      match decode2integer (msg.drop head) 0 with
      | .ok (v, cur) => .ok (v, head + cur)
      | .error code => .error code := by
  unfold decode2integer
  rw [str2num_drop_add msg head 1, Nat.zero_add]
  cases str2num (List.drop head msg) 1 with
  | error e => rfl
  | ok r => obtain ⟨v, c⟩ := r; rfl

theorem decode2array_drop (msg : List Nat) (head : Nat) :
    decode2array msg head =
      match decode2array (msg.drop head) 0 with
      | .ok (v, cur, narr) => .ok (v, head + cur, narr)
      | .error code => .error code := by
  unfold decode2array
  rw [str2num_drop_add msg head 1, Nat.zero_add]
  cases str2num (List.drop head msg) 1 with
  | error e => rfl
  | ok r =>
    obtain ⟨v, c⟩ := r
    simp only [shiftNum]
    split
    · rfl
    · split <;> rfl

theorem decode2bulkstring_drop (msg : List Nat) (head : Nat) (h : head ≤ msg.length) :
    decode2bulkstring msg head =
      match decode2bulkstring (msg.drop head) 0 with
      | .ok (v, cur) => .ok (v, head + cur)
      | .error code => .error code := by
  unfold decode2bulkstring
  rw [str2num_drop_add msg head 1, Nat.zero_add]
  cases str2num (List.drop head msg) 1 with
  | error e => rfl
  | ok r =>
    obtain ⟨v, c⟩ := r
    have hlen : ((msg.length : Int) - ((head + c : Nat) : Int))
        = (((msg.drop head).length : Nat) : Int) - (c : Int) := by
      rw [List.length_drop]; omega
    simp only [shiftNum, hlen, byteAt_drop, List.drop_drop, Nat.add_assoc]
    split
    · split
      · split
        · rfl
        · rfl
      · rfl
    · split <;> rfl

theorem parseElement_drop (msg : List Nat) (head : Nat) (h : head ≤ msg.length) :
    parseElement msg head = (parseElement (msg.drop head) 0).shift head := by
  unfold parseElement
  simp only [byteAt_drop, Nat.add_zero, Nat.zero_add]
  split
  · rfl
  · split
    · rw [decode2string_drop_succ]
      cases decode2string (List.drop head msg) 1 with
      | error e => rfl
      | ok r => obtain ⟨v, c⟩ := r; rfl
    · split
      · rename_i h45
        rw [decode2string_drop_minus msg head h45]
        cases decode2string (List.drop head msg) 0 with
        | error e => rfl
        | ok r => obtain ⟨v, c⟩ := r; rfl
      · split
        · rw [decode2integer_drop]
          cases decode2integer (List.drop head msg) 0 with
          | error e => rfl
          | ok r => obtain ⟨v, c⟩ := r; rfl
        · split
          · rw [decode2bulkstring_drop msg head h]
            cases decode2bulkstring (List.drop head msg) 0 with
            | error e => rfl
            | ok r => obtain ⟨v, c⟩ := r; rfl
          · split
            · rw [decode2array_drop]
              cases decode2array (List.drop head msg) 0 with
              | error e => rfl
              | ok r =>
                obtain ⟨v, c, n⟩ := r
                simp only []
                split <;> rfl
            · rfl

theorem parseElement_append (pre x : List Nat) :
    parseElement (pre ++ x) pre.length = (parseElement x 0).shift pre.length := by
  rw [parseElement_drop _ _ (by simp)]
  simp

theorem str2num_sigil_decimal (c : Nat) (n : Int) (rest : List Nat) (h1 : LLONG_MIN ≤ n)
    (h2 : n ≤ LLONG_MAX) :
    str2num (c :: (decimal n ++ CR :: LF :: rest)) 1 = .ok (n, (decimal n).length + 3) := by
  have := str2num_drop_add (c :: (decimal n ++ CR :: LF :: rest)) 1 0
  simp only [Nat.add_zero, List.drop_succ_cons, List.drop_zero] at this
  rw [this, str2num_decimal n rest h1 h2]
  simp [shiftNum]
  omega

theorem decimal_natCast (n : Nat) : decimal (n : Int) = decimalNat n := by
  unfold decimal
  rw [if_neg (by omega)]
  simp

theorem parseElement_integer (n : Int) (rest : List Nat) (h1 : LLONG_MIN ≤ n)
    (h2 : n ≤ LLONG_MAX) :
    parseElement (58 :: (decimal n ++ CR :: LF :: rest)) 0
      = .value (.integer n) ((decimal n).length + 3) := by
  simp [parseElement, byteAt_cons_zero, decode2integer, str2num_sigil_decimal 58 n rest h1 h2]

theorem parseElement_nil (rest : List Nat) :
    parseElement (36 :: 45 :: 49 :: CR :: LF :: rest) 0 = .value .nil 5 := by
  have h := str2num_sigil_decimal 36 (-1) rest (by decide) (by decide)
  have hd : decimal (-1) = [45, 49] := by decide
  rw [hd] at h
  simp only [List.cons_append, List.nil_append, List.length_cons, List.length_nil] at h
  simp [parseElement, byteAt_cons_zero, decode2bulkstring, h]

theorem decode2bulkstring_frame (n : Nat) (r : List Nat) (hn : (n : Int) ≤ LLONG_MAX)
    (hlen : r.length < 18446744073709551616) :
    decode2bulkstring (36 :: (decimalNat n ++ CR :: LF :: r)) 0 =
      if r.length < n + 2 then .error RESP_EAGAIN
      else if byteAt r n = CR ∧ byteAt r (n + 1) = LF then
        .ok (.string (r.take n), (decimalNat n).length + 3 + n + 2)
      else .error RESP_EILSEQ := by
  have h := str2num_sigil_decimal 36 (n : Int) r (by simp only [LLONG_MIN]; omega) hn
  rw [decimal_natCast] at h
  have hmsg : (36 :: (decimalNat n ++ CR :: LF :: r))
      = (36 :: (decimalNat n ++ [CR, LF])) ++ r := by simp
  have hpl : (36 :: (decimalNat n ++ [CR, LF])).length = (decimalNat n).length + 3 := by simp
  have hb1 : byteAt (36 :: (decimalNat n ++ CR :: LF :: r)) ((decimalNat n).length + 3 + n)
      = byteAt r n := by
    rw [hmsg, ← hpl, byteAt_append_right]
  have hb2 : byteAt (36 :: (decimalNat n ++ CR :: LF :: r)) ((decimalNat n).length + 3 + n + 1)
      = byteAt r (n + 1) := by
    rw [hmsg, ← hpl, Nat.add_assoc, byteAt_append_right]
  have hd : List.drop ((decimalNat n).length + 3) (36 :: (decimalNat n ++ CR :: LF :: r)) = r := by
    rw [hmsg, ← hpl, List.drop_left]
  have hl : (((36 :: (decimalNat n ++ CR :: LF :: r)).length : Nat) : Int)
      - (((decimalNat n).length + 3 : Nat) : Int) = (r.length : Int) := by
    simp only [List.length_cons, List.length_append]
    omega
  unfold decode2bulkstring
  simp only [Nat.zero_add, h, hl, Int.toNat_ofNat, hb1, hb2, hd]
  simp only [LLONG_MAX] at hn
  rw [if_pos (by omega)]
  by_cases hlt : r.length < n + 2
  · rw [if_neg (by omega), if_pos hlt]
  · rw [if_pos (by omega), if_neg hlt]

theorem parseElement_bulk (s rest : List Nat) (hs : (s.length : Int) ≤ LLONG_MAX)
    (hlen : s.length + 2 + rest.length < 18446744073709551616) :
    parseElement (36 :: (decimalNat s.length ++ CR :: LF :: (s ++ CR :: LF :: rest))) 0
      = .value (.string s) ((decimalNat s.length).length + 3 + s.length + 2) := by
  have h := decode2bulkstring_frame s.length (s ++ CR :: LF :: rest) hs
    (by simp only [List.length_append, List.length_cons]; omega)
  rw [if_neg (by simp only [List.length_append, List.length_cons]; omega)] at h
  have hb1 : byteAt (s ++ CR :: LF :: rest) s.length = CR := by
    rw [byteAt_append_length, byteAt_cons_zero]
  have hb2 : byteAt (s ++ CR :: LF :: rest) (s.length + 1) = LF := by
    rw [byteAt_append_right, byteAt_cons_succ, byteAt_cons_zero]
  rw [if_pos ⟨hb1, hb2⟩] at h
  simp [parseElement, byteAt_cons_zero, h]

theorem parseElement_array (n : Nat) (rest : List Nat) (hn : (n : Int) ≤ LLONG_MAX) :
    parseElement (42 :: (decimalNat n ++ CR :: LF :: rest)) 0 =
      if 0 < n then .array (n : Int) ((decimalNat n).length + 3)
      else .value (.table []) ((decimalNat n).length + 3) := by
  have h := str2num_sigil_decimal 42 (n : Int) rest (by simp only [LLONG_MIN]; omega) hn
  rw [decimal_natCast] at h
  simp [parseElement, byteAt_cons_zero, decode2array, h]

/-! ## Bulk framing, simple strings, null values and the boundary example (C2, C6, C9, C10) -/

theorem decode_lua_append_eq (pre x : List Nat) :
    decode_lua (pre ++ x) pre.length =
      match parseElement x 0 with
      | .failed code => some (.error code)
      | .value v cur => some (.done v (pre.length + cur) (byteAt x 0))
      | .array narr cur =>
        decodeLoop (pre ++ x) (byteAt x 0) (pre ++ x).length (pre.length + cur) [⟨narr, 0, []⟩] := by
  unfold decode_lua
  rw [decodeLoop, parseElement_append, byteAt_append_length]
  cases parseElement x 0 <;> simp [Parsed.shift, storeLoop]

/-- C2: bulk-string decoding is exactly length-framed.  For a buffer (shorter than `2^63` bytes,
as every buffer in memory is) that at `offset = |pre|` holds `$`, the decimal of `n` with
`0 ≤ n ≤ 2^63 - 1` and CRLF, followed by the bytes `r`: `decode` reports `NeedMoreBytes` when
`|r| < n + 2`, `MalformedSequence` when `|r| ≥ n + 2` and `r[n], r[n+1]` are not CR, LF, and
otherwise succeeds with the first `n` bytes of `r`, type tag `$` and the offset right after the
CRLF that follows the payload. -/
theorem bulk_string_length_framed (pre r : List Nat) (n : Nat) (hn : (n : Int) ≤ LLONG_MAX)
    (hlen : (pre ++ 36 :: (decimalNat n ++ CR :: LF :: r)).length < 9223372036854775808) :
    (r.length < n + 2 →
      decode_lua (pre ++ 36 :: (decimalNat n ++ CR :: LF :: r)) pre.length
        = some (.error RESP_EAGAIN)) ∧
    (n + 2 ≤ r.length → ¬ (byteAt r n = CR ∧ byteAt r (n + 1) = LF) →
      decode_lua (pre ++ 36 :: (decimalNat n ++ CR :: LF :: r)) pre.length
        = some (.error RESP_EILSEQ)) ∧
    (n + 2 ≤ r.length → byteAt r n = CR ∧ byteAt r (n + 1) = LF →
      decode_lua (pre ++ 36 :: (decimalNat n ++ CR :: LF :: r)) pre.length
        = some (.done (.string (r.take n))
            (pre.length + (1 + (decimalNat n).length + 2) + n + 2) 36)) := by
  have hr : r.length < 18446744073709551616 := by
    simp only [List.length_append, List.length_cons] at hlen
    omega
  have hf := decode2bulkstring_frame n r hn hr
  have hp : parseElement (36 :: (decimalNat n ++ CR :: LF :: r)) 0 =
      match decode2bulkstring (36 :: (decimalNat n ++ CR :: LF :: r)) 0 with
      | .ok (v, cur) => .value v cur
      | .error code => .failed code := by
    simp [parseElement, byteAt_cons_zero]
  rw [decode_lua_append_eq, hp, hf]
  refine ⟨fun h => ?_, fun h h' => ?_, fun h h' => ?_⟩
  · rw [if_pos h]
  · rw [if_neg (by omega), if_neg h']
  · rw [if_neg (by omega), if_pos h']
    simp only [byteAt_cons_zero, Option.some.injEq, DecodeOutcome.done.injEq, and_true, true_and]
    omega

/-- Instance of C2: `$2\r\nhi\r\n` decodes to the two bytes `hi`, with next offset 8. -/
theorem bulk_string_length_framed_witness :
    decode_lua [36, 50, 13, 10, 104, 105, 13, 10] 0
      = some (.done (.string [104, 105]) 8 36) :=
  (bulk_string_length_framed [] [104, 105, 13, 10] 2 (by decide) (by decide)).2.2
    (by decide) (by decide)

/-- C6 (amended): for a text `t` without CR and LF, `+t\r\n` decodes to the content `t` and
`-t\r\n` decodes to the content `-t`, the sigil `-` being kept; in both cases the next offset
is `|t| + 3` and the type tag is the sigil. -/
theorem simple_string_and_error_content (t : List Nat) (hcr : CR ∉ t) (hlf : LF ∉ t) :
    decode_lua (43 :: (t ++ [CR, LF])) 0 = some (.done (.string t) (t.length + 3) 43) ∧
    decode_lua (45 :: (t ++ [CR, LF])) 0 = some (.done (.string (45 :: t)) (t.length + 3) 45) :=
  ⟨decode_lua_value _ _ _ _ (parseElement_simple t [] hcr hlf),
   decode_lua_value _ _ _ _ (parseElement_error t [] hcr hlf)⟩

/-- Instance of C6 (amended) at the text `OK`. -/
theorem simple_string_and_error_content_witness :
    decode_lua [43, 79, 75, 13, 10] 0 = some (.done (.string [79, 75]) 5 43) ∧
    decode_lua [45, 79, 75, 13, 10] 0 = some (.done (.string [45, 79, 75]) 5 45) :=
  simple_string_and_error_content [79, 75] (by decide) (by decide)

/-- C6 as stated fails for errors: `-E\r\n` does not decode to the content `E`. -/
theorem error_content_keeps_sigil :
    (13 ∉ [69] ∧ 10 ∉ [69]) ∧
    decode_lua ([45] ++ [69] ++ [13, 10]) 0 ≠ some (.done (.string [69]) (1 + 3) 45) := by
  decide

/-- C9: `$-1\r\n` decodes to nil with tag `$`, `*-1\r\n` to nil with tag `*`, and `*0\r\n` to
an empty table; the three results are pairwise different. -/
theorem null_distinctions :
    decode_lua [36, 45, 49, 13, 10] 0 = some (.done .nil 5 36) ∧
    decode_lua [42, 45, 49, 13, 10] 0 = some (.done .nil 5 42) ∧
    decode_lua [42, 48, 13, 10] 0 = some (.done (.table []) 4 42) ∧
    decode_lua [36, 45, 49, 13, 10] 0 ≠ decode_lua [42, 45, 49, 13, 10] 0 ∧
    decode_lua [36, 45, 49, 13, 10] 0 ≠ decode_lua [42, 48, 13, 10] 0 ∧
    decode_lua [42, 45, 49, 13, 10] 0 ≠ decode_lua [42, 48, 13, 10] 0 := by
  decide

/-- C10 (amended): `$3\r\nabc\r\n` decodes at offset 0 to the bulk string `abc` with next
offset 9, the length of the buffer. -/
theorem boundary_bulk_abc :
    decode_lua [36, 51, 13, 10, 97, 98, 99, 13, 10] 0
      = some (.done (.string [97, 98, 99]) 9 36) := by
  decide

/-- C10 as stated fails: the next offset of `$3\r\nabc\r\n` is not 10. -/
theorem boundary_bulk_abc_not_ten :
    ¬ ∃ t, decode_lua [36, 51, 13, 10, 97, 98, 99, 13, 10] 0
      = some (.done (.string [97, 98, 99]) 10 t) := by
  rintro ⟨t, h⟩
  have h9 : decode_lua [36, 51, 13, 10, 97, 98, 99, 13, 10] 0
      = some (.done (.string [97, 98, 99]) 9 36) := by decide
  rw [h9] at h
  simp at h

/-! ## Numeric overflow (C7) -/

theorem foldl_digit_ge (e : List Nat) (a : Nat) :
    a ≤ e.foldl (fun acc c => acc * 10 + (c - 48)) a := by
  induction e generalizing a with
  | nil => simp
  | cons c e ih =>
    simp only [List.foldl_cons]
    exact Nat.le_trans (by omega) (ih (a * 10 + (c - 48)))

theorem digitsValue_append_ge (ds e : List Nat) : digitsValue ds ≤ digitsValue (ds ++ e) := by
  simp only [digitsValue, List.foldl_append]
  exact foldl_digit_ge e _

theorem takeWhile_dropWhile_nil (p : Nat → Bool) (l : List Nat) :
    (l.dropWhile p).takeWhile p = [] := by
  induction l with
  | nil => simp
  | cons c l ih =>
    by_cases h : p c = true
    · simp [List.dropWhile_cons, h, ih]
    · simp [List.dropWhile_cons, h, List.takeWhile_cons]

theorem strtoll_plus (ds rest : List Nat) (hne : ds ≠ []) (hds : ∀ c ∈ ds, isdigit c = true)
    (hrest : rest.takeWhile isdigit = []) :
    strtoll (43 :: (ds ++ rest)) =
      if (digitsValue ds : Int) > LLONG_MAX then ⟨LLONG_MAX, true, ds.length + 1⟩
      else ⟨(digitsValue ds : Int), false, ds.length + 1⟩ := by
  have htd := takeWhile_digits_append ds rest hds hrest
  have hsp : isspace 43 = false := by decide
  have htw : (43 :: (ds ++ rest)).takeWhile isspace = [] := by simp [hsp]
  have hdw : (43 :: (ds ++ rest)).dropWhile isspace = 43 :: (ds ++ rest) := by
    simp [List.dropWhile_cons, hsp]
  have hsl : signLen (43 :: (ds ++ rest)) = 1 := rfl
  unfold strtoll
  have h43 : (some (43 : Nat)) ≠ some 45 := by decide
  simp only [htw, hdw, hsl, List.drop_succ_cons, List.drop_zero, htd, List.head?_cons,
    if_neg hne, List.length_nil, Nat.zero_add, if_neg h43]
  have hneg : (digitsValue ds : Int) ≥ 0 := Int.ofNat_nonneg _
  rw [Nat.add_comm 1]
  split
  · rfl
  · rw [if_neg (by simp only [LLONG_MIN]; omega)]

/-- A sign followed by digits whose value is out of range makes `strtoll` report `ERANGE`,
whatever follows. -/
theorem strtoll_erange (sgn ds rest : List Nat) (hsgn : sgn = [] ∨ sgn = [43] ∨ sgn = [45])
    (hne : ds ≠ []) (hds : ∀ c ∈ ds, isdigit c = true)
    (hout : (if sgn = [45] then -(digitsValue ds : Int) else (digitsValue ds : Int)) < LLONG_MIN ∨
      LLONG_MAX < (if sgn = [45] then -(digitsValue ds : Int) else (digitsValue ds : Int))) :
    (strtoll (sgn ++ ds ++ rest)).erange = true := by
  have hsplit : ds ++ rest = (ds ++ rest.takeWhile isdigit) ++ rest.dropWhile isdigit := by
    rw [List.append_assoc, List.takeWhile_append_dropWhile]
  have hne2 : ds ++ rest.takeWhile isdigit ≠ [] := by simp [hne]
  have hds2 : ∀ c ∈ ds ++ rest.takeWhile isdigit, isdigit c = true := by
    intro c hc
    rcases List.mem_append.mp hc with hc | hc
    · exact hds c hc
    · exact (List.mem_takeWhile_imp hc)
  have hge := digitsValue_append_ge ds (rest.takeWhile isdigit)
  have hr := takeWhile_dropWhile_nil isdigit rest
  simp only [LLONG_MIN, LLONG_MAX] at hout
  rcases hsgn with rfl | rfl | rfl
  · simp only [List.nil_append, List.nil_eq, List.cons_ne_self, if_false] at hout ⊢
    rw [hsplit, strtoll_digits _ _ hne2 hds2 hr]
    simp only [LLONG_MAX]
    rw [if_pos (by simp at hout; omega)]
  · rw [if_neg (by decide)] at hout
    show (strtoll (43 :: (ds ++ rest))).erange = true
    rw [hsplit, strtoll_plus _ _ hne2 hds2 hr]
    simp only [LLONG_MAX]
    rw [if_pos (by omega)]
  · simp only [if_true] at hout
    show (strtoll (45 :: (ds ++ rest))).erange = true
    rw [hsplit, strtoll_minus _ _ hne2 hds2 hr]
    simp only [LLONG_MIN]
    rw [if_pos (by omega)]

theorem str2num_erange (msg : List Nat) (head : Nat)
    (h : (strtoll (msg.drop head)).erange = true) : str2num msg head = .error RESP_EILSEQ := by
  rw [str2num_eq, if_pos h]

/-- C7: numeric overflow is rejected.  When the buffer holds at `offset = |pre|` one of the
sigils `:`, `$`, `*` followed by an optional sign and a non-empty run of digits `ds` whose
signed value lies outside `[-2^63, 2^63 - 1]`, `decode` reports `MalformedSequence`, whatever
bytes `rest` follow. -/
theorem numeric_overflow_rejected (pre sgn ds rest : List Nat) (sigil : Nat)
    (hsig : sigil = 58 ∨ sigil = 36 ∨ sigil = 42)
    (hsgn : sgn = [] ∨ sgn = [43] ∨ sgn = [45])
    (hne : ds ≠ []) (hds : ∀ c ∈ ds, isdigit c = true)
    (hout : (if sgn = [45] then -(digitsValue ds : Int) else (digitsValue ds : Int)) < LLONG_MIN ∨
      LLONG_MAX < (if sgn = [45] then -(digitsValue ds : Int) else (digitsValue ds : Int))) :
    decode_lua (pre ++ sigil :: (sgn ++ ds ++ rest)) pre.length = some (.error RESP_EILSEQ) := by
  have hs : str2num (sigil :: (sgn ++ ds ++ rest)) 1 = .error RESP_EILSEQ :=
    str2num_erange _ _ (by simpa using strtoll_erange sgn ds rest hsgn hne hds hout)
  rw [decode_lua_append_eq]
  rcases hsig with rfl | rfl | rfl
  · simp only [parseElement, byteAt_cons_zero, decode2integer, hs]
    simp
  · simp only [parseElement, byteAt_cons_zero, decode2bulkstring, hs]
    simp
  · simp only [parseElement, byteAt_cons_zero, decode2array, hs]
    simp

/-- Instance of C7: `:99999999999999999999\r\n` is a malformed sequence. -/
theorem numeric_overflow_rejected_witness :
    decode_lua [58, 57, 57, 57, 57, 57, 57, 57, 57, 57, 57, 57, 57, 57, 57, 57, 57, 57, 57, 57,
      57, 13, 10] 0 = some (.error RESP_EILSEQ) :=
  numeric_overflow_rejected [] []
    [57, 57, 57, 57, 57, 57, 57, 57, 57, 57, 57, 57, 57, 57, 57, 57, 57, 57, 57, 57] [13, 10] 58
    (by decide) (by decide) (by decide) (by decide) (by decide)

/-! ## Negative lengths (C8) -/

theorem parseElement_negative_bulk (n : Int) (rest : List Nat) (h1 : LLONG_MIN ≤ n)
    (h2 : n < -1) :
    parseElement (36 :: (decimal n ++ CR :: LF :: rest)) 0 = .failed RESP_EILSEQ := by
  have h := str2num_sigil_decimal 36 n rest h1 (by simp only [LLONG_MAX]; omega)
  have h3 : ¬ n ≥ 0 := by omega
  have h4 : ¬ n = -1 := by omega
  simp [parseElement, byteAt_cons_zero, decode2bulkstring, h, h3, h4]

theorem parseElement_negative_array (n : Int) (rest : List Nat) (h1 : LLONG_MIN ≤ n)
    (h2 : n < -1) :
    parseElement (42 :: (decimal n ++ CR :: LF :: rest)) 0 = .failed RESP_EILSEQ := by
  have h := str2num_sigil_decimal 42 n rest h1 (by simp only [LLONG_MAX]; omega)
  have h3 : ¬ n ≥ 0 := by omega
  have h4 : ¬ n = -1 := by omega
  simp [parseElement, byteAt_cons_zero, decode2array, h, h3, h4]

theorem decodeLoop_failed (msg : List Nat) (type fuel head : Nat) (arr : List arraylist_t)
    (code : Int) (h : parseElement msg head = .failed code) :
    decodeLoop msg type (fuel + 1) head arr = some (.error code) := by
  simp [decodeLoop, h]

theorem decodeLoop_array (msg : List Nat) (type fuel head cur : Nat) (arr : List arraylist_t)
    (narr : Int) (h : parseElement msg head = .array narr cur) :
    decodeLoop msg type (fuel + 1) head arr
      = decodeLoop msg type fuel cur (⟨narr, 0, []⟩ :: arr) := by
  simp [decodeLoop, h]

/-- C8: a bulk-string or array header whose length `n` satisfies `-2^63 ≤ n < -1` is a
malformed sequence, whatever follows: at the top level, at any pass of the driver whatever
frames are open and whatever was consumed before, and in particular as the first element of an
array of `k ≥ 1` elements. -/
theorem negative_length_malformed (n : Int) (rest : List Nat) (h1 : LLONG_MIN ≤ n)
    (h2 : n < -1) :
    decode_lua (36 :: (decimal n ++ CR :: LF :: rest)) 0 = some (.error RESP_EILSEQ) ∧
    decode_lua (42 :: (decimal n ++ CR :: LF :: rest)) 0 = some (.error RESP_EILSEQ) ∧
    (∀ (pre : List Nat) (type fuel : Nat) (arr : List arraylist_t),
      decodeLoop (pre ++ 36 :: (decimal n ++ CR :: LF :: rest)) type (fuel + 1) pre.length arr
        = some (.error RESP_EILSEQ) ∧
      decodeLoop (pre ++ 42 :: (decimal n ++ CR :: LF :: rest)) type (fuel + 1) pre.length arr
        = some (.error RESP_EILSEQ)) ∧
    (∀ k : Nat, 0 < k → (k : Int) ≤ LLONG_MAX →
      decode_lua (42 :: (decimalNat k ++ CR :: LF :: 36 :: (decimal n ++ CR :: LF :: rest))) 0
        = some (.error RESP_EILSEQ) ∧
      decode_lua (42 :: (decimalNat k ++ CR :: LF :: 42 :: (decimal n ++ CR :: LF :: rest))) 0
        = some (.error RESP_EILSEQ)) := by
  have hb := parseElement_negative_bulk n rest h1 h2
  have ha := parseElement_negative_array n rest h1 h2
  have hloop : ∀ (pre : List Nat) (type fuel : Nat) (arr : List arraylist_t),
      decodeLoop (pre ++ 36 :: (decimal n ++ CR :: LF :: rest)) type (fuel + 1) pre.length arr
        = some (.error RESP_EILSEQ) ∧
      decodeLoop (pre ++ 42 :: (decimal n ++ CR :: LF :: rest)) type (fuel + 1) pre.length arr
        = some (.error RESP_EILSEQ) := by
    intro pre type fuel arr
    constructor
    · apply decodeLoop_failed
      rw [parseElement_append, hb]
      rfl
    · apply decodeLoop_failed
      rw [parseElement_append, ha]
      rfl
  refine ⟨decode_lua_failed _ _ _ hb, decode_lua_failed _ _ _ ha, hloop, ?_⟩
  intro k hk hk2
  have hnest : ∀ x : List Nat,
      (∀ fuel, decodeLoop ((42 :: (decimalNat k ++ [CR, LF])) ++ x) 42 (fuel + 1)
          ((42 :: (decimalNat k ++ [CR, LF])).length) [⟨(k : Int), 0, []⟩]
            = some (.error RESP_EILSEQ)) →
      decode_lua (42 :: (decimalNat k ++ CR :: LF :: x)) 0 = some (.error RESP_EILSEQ) := by
    intro x hx
    have hp := parseElement_array k x hk2
    rw [if_pos hk] at hp
    have e1 : (42 :: (decimalNat k ++ [CR, LF])) ++ x = 42 :: (decimalNat k ++ CR :: LF :: x) := by
      simp
    have e2 : (42 :: (decimalNat k ++ [CR, LF])).length = (decimalNat k).length + 3 := by simp
    rw [e1, e2] at hx
    unfold decode_lua
    rw [byteAt_cons_zero, decodeLoop_array _ _ _ _ _ _ _ hp]
    exact hx _
  exact ⟨hnest _ (fun fuel => (hloop _ 42 fuel _).1), hnest _ (fun fuel => (hloop _ 42 fuel _).2)⟩

/-- Instance of C8 at `n = -2`: `$-2\r\n`, `*-2\r\n` and `*1\r\n$-2\r\n` are malformed. -/
theorem negative_length_malformed_witness :
    decode_lua [36, 45, 50, 13, 10] 0 = some (.error RESP_EILSEQ) ∧
    decode_lua [42, 45, 50, 13, 10] 0 = some (.error RESP_EILSEQ) ∧
    decode_lua [42, 49, 13, 10, 36, 45, 50, 13, 10] 0 = some (.error RESP_EILSEQ) := by
  have h := negative_length_malformed (-2) [] (by decide) (by decide)
  rw [show decimal (-2) = [45, 50] from by decide] at h
  exact ⟨h.1, h.2.1, (h.2.2.2 1 (by decide) (by decide)).1⟩

/-! ## Encoding followed by decoding (C1) -/

theorem encode2string_ok (s bytes : List Nat) (h : encode2string s = .ok bytes) :
    s.length ≤ BSTR_MAXLEN ∧
    ((∃ t, t ≠ [] ∧ (s = 43 :: t ∨ s = 45 :: t) ∧ CR ∉ t ∧ LF ∉ t ∧ bytes = s ++ [CR, LF]) ∨
     (¬ ((byteAt s 0 = 43 ∨ byteAt s 0 = 45) ∧ 1 < s.length) ∧
        bytes = 36 :: (decimalNat s.length ++ [CR, LF]) ++ s ++ [CR, LF])) := by
  unfold encode2string at h
  by_cases hlen : s.length > BSTR_MAXLEN
  · rw [if_pos hlen] at h; simp at h
  · rw [if_neg hlen] at h
    refine ⟨by omega, ?_⟩
    by_cases hsign : (byteAt s 0 = 43 ∨ byteAt s 0 = 45) ∧ 1 < s.length
    · left
      obtain ⟨hs, hl⟩ := hsign
      cases s with
      | nil => simp at hl
      | cons c t =>
        rw [byteAt_cons_zero] at hs
        have hl' : 0 < t.length := by simpa using hl
        have hdec : (decide (c = 43) || decide (c = 45)) = true := by simpa using hs
        simp only [byteAt_cons_zero, hdec, if_true, List.drop_succ_cons, List.drop_zero,
          List.length_cons, Bool.true_and] at h
        have hlt : (1 < t.length + 1) := by omega
        simp only [hlt, decide_True, Bool.not_true, Bool.false_eq_true, if_false,
          List.nil_append] at h
        by_cases hany : (t.any fun c => decide (c = CR) || decide (c = LF)) = true
        · rw [if_pos hany] at h; simp at h
        · rw [if_neg hany] at h
          simp only [Except.ok.injEq] at h
          refine ⟨t, ?_, ?_, ?_, ?_, h.symm⟩
          · intro ht; subst ht; simp at hl'
          · rcases hs with rfl | rfl
            · left; rfl
            · right; rfl
          · intro hc; apply hany; simp only [List.any_eq_true]; exact ⟨CR, hc, by simp⟩
          · intro hc; apply hany; simp only [List.any_eq_true]; exact ⟨LF, hc, by simp⟩
    · right
      refine ⟨hsign, ?_⟩
      have hb : (!((decide (byteAt s 0 = 43) || decide (byteAt s 0 = 45)) &&
          decide ((if (decide (byteAt s 0 = 43) || decide (byteAt s 0 = 45)) = true then 1 else 0)
            < s.length))) = true := by
        by_cases hs : byteAt s 0 = 43 ∨ byteAt s 0 = 45
        · have hdec : (decide (byteAt s 0 = 43) || decide (byteAt s 0 = 45)) = true := by
            simpa using hs
          have hl : ¬ 1 < s.length := fun hl => hsign ⟨hs, hl⟩
          simp [hdec, hl]
        · have hdec : (decide (byteAt s 0 = 43) || decide (byteAt s 0 = 45)) = false := by
            simpa using hs
          simp [hdec]
      simp only [hb, if_true] at h
      have hfin : ∀ b : Bool, (if b = true then (Except.error "string cannot containe a CR or LF" : Except String (List Nat))
          else .ok (36 :: decimalNat s.length ++ [CR, LF] ++ s ++ [CR, LF])) = .ok bytes →
          bytes = 36 :: (decimalNat s.length ++ [CR, LF]) ++ s ++ [CR, LF] := by
        intro b hb'
        cases b
        · simp only [Bool.false_eq_true, if_false, Except.ok.injEq] at hb'
          rw [← hb']
          simp
        · simp at hb'
      exact hfin _ h

theorem decodeLoop_succ (msg : List Nat) (type fuel head : Nat) (arr : List arraylist_t) :
    decodeLoop msg type (fuel + 1) head arr =
      match parseElement msg head with
      | .failed code => some (.error code)
      | .array narr cur => decodeLoop msg type fuel cur (⟨narr, 0, []⟩ :: arr)
      | .value v cur => resume msg type fuel cur arr v := by
  rw [decodeLoop]
  cases parseElement msg head <;> rfl

theorem decodeLoop_value (msg : List Nat) (type fuel head cur : Nat) (arr : List arraylist_t)
    (v : Value) (h : parseElement msg head = .value v cur) :
    decodeLoop msg type (fuel + 1) head arr = resume msg type fuel cur arr v := by
  rw [decodeLoop_succ, h]

theorem parseElement_at (msg : List Nat) (head : Nat) (x : List Nat) (hle : head ≤ msg.length)
    (hx : msg.drop head = x) : parseElement msg head = (parseElement x 0).shift head := by
  rw [parseElement_drop msg head hle, hx]

theorem drop_add_of_drop_eq (msg : List Nat) (head : Nat) (a b : List Nat)
    (h : msg.drop head = a ++ b) : msg.drop (head + a.length) = b := by
  rw [← List.drop_drop, h, List.drop_left]

theorem length_of_drop_eq (msg : List Nat) (head : Nat) (x : List Nat) (hle : head ≤ msg.length)
    (h : msg.drop head = x) : msg.length = head + x.length := by
  have := congrArg List.length h
  rw [List.length_drop] at this
  omega

mutual
theorem passes_le_length : ∀ (v : Value) (bytes : List Nat),
    encode2value v = .ok bytes → passes v ≤ bytes.length ∧ 1 ≤ bytes.length
  | .nil, bytes, h => by
    simp only [encode2value, Except.ok.injEq] at h
    subst h
    simp [passes, encode2nil]
  | .boolean b, bytes, h => by
    simp only [encode2value, Except.ok.injEq] at h
    subst h
    cases b <;> simp [passes, encode2boolean]
  | .integer n, bytes, h => by
    simp only [encode2value, Except.ok.injEq] at h
    subst h
    simp [passes, encode2number]
  | .string s, bytes, h => by
    simp only [encode2value] at h
    obtain ⟨_, h' | h'⟩ := encode2string_ok s bytes h
    · obtain ⟨t, _, _, _, _, rfl⟩ := h'
      simp [passes]
    · obtain ⟨_, rfl⟩ := h'
      simp [passes]
  | .table xs, bytes, h => by
    simp only [encode2value] at h
    cases hx : encode2values xs with
    | error e => rw [hx] at h; simp at h
    | ok bs =>
      rw [hx] at h
      simp only [Except.ok.injEq] at h
      subst h
      have := passesList_le_length xs bs hx
      simp only [passes, List.length_cons, List.length_append]
      omega
  | .other t, bytes, h => by
    simp [encode2value] at h
theorem passesList_le_length : ∀ (xs : List Value) (bytes : List Nat),
    encode2values xs = .ok bytes → passesList xs ≤ bytes.length
  | [], bytes, h => by
    simp [passesList]
  | x :: xs, bytes, h => by
    simp only [encode2values] at h
    cases hx : encode2value x with
    | error e => rw [hx] at h; simp at h
    | ok b =>
      cases hxs : encode2values xs with
      | error e => rw [hx, hxs] at h; simp at h
      | ok bs =>
        rw [hx, hxs] at h
        simp only [Except.ok.injEq] at h
        subst h
        have h1 := (passes_le_length x b hx).1
        have h2 := passesList_le_length xs bs hxs
        simp only [passesList, List.length_append]
        omega
end

theorem length_le_passesList : ∀ xs : List Value, xs.length ≤ passesList xs
  | [] => by simp [passesList]
  | x :: xs => by
    have := length_le_passesList xs
    have : 1 ≤ passes x := by cases x <;> simp [passes]
    simp only [passesList, List.length_cons]
    omega

/-- One pass of the driver over an element whose bytes are `bytes`: if the `switch` yields the
value `v` after `bytes`, the driver goes on as `resume` says. -/
theorem decodeLoop_element (msg bytes rest : List Nat) (head type fuel : Nat)
    (arr : List arraylist_t) (v : Value) (hle : head ≤ msg.length)
    (hdrop : msg.drop head = bytes ++ rest)
    (hp : parseElement (bytes ++ rest) 0 = .value v bytes.length) :
    decodeLoop msg type (1 + fuel) head arr = resume msg type fuel (head + bytes.length) arr v := by
  rw [Nat.add_comm 1 fuel]
  apply decodeLoop_value
  rw [parseElement_at msg head _ hle hdrop, hp]
  rfl

theorem decodeLoop_string (s bytes rest msg : List Nat) (head type fuel : Nat)
    (arr : List arraylist_t) (henc : encode2string s = .ok bytes) (hle : head ≤ msg.length)
    (hdrop : msg.drop head = bytes ++ rest) (hlen : msg.length < 9223372036854775808) :
    decodeLoop msg type (1 + fuel) head arr
      = resume msg type fuel (head + bytes.length) arr (decoded (.string s)) := by
  apply decodeLoop_element msg bytes rest head type fuel arr _ hle hdrop
  have hml := length_of_drop_eq msg head _ hle hdrop
  obtain ⟨hmax, h | h⟩ := encode2string_ok s bytes henc
  · obtain ⟨t, hne, hs, hcr, hlf, rfl⟩ := h
    have htl : 0 < t.length := List.length_pos.mpr hne
    rcases hs with rfl | rfl
    · have := parseElement_simple t rest hcr hlf
      simp only [List.cons_append, List.append_assoc, List.singleton_append, List.nil_append] at this ⊢
      rw [this]
      simp [decoded, byteAt_cons_zero, htl]
    · have := parseElement_error t rest hcr hlf
      simp only [List.cons_append, List.append_assoc, List.singleton_append, List.nil_append] at this ⊢
      rw [this]
      simp [decoded, byteAt_cons_zero]
  · obtain ⟨hns, rfl⟩ := h
    have hns' : ¬ (byteAt s 0 = 43 ∧ 1 < s.length) := fun hc => hns ⟨Or.inl hc.1, hc.2⟩
    simp only [List.length_append, List.length_cons, List.length_nil] at hml
    have := parseElement_bulk s rest (by simp only [LLONG_MAX, BSTR_MAXLEN] at *; omega)
      (by omega)
    simp only [List.cons_append, List.append_assoc, List.singleton_append, List.nil_append] at this ⊢
    rw [this]
    simp only [decoded, if_neg hns', List.length_cons, List.length_append, List.length_nil]
    congr 1
    omega

theorem resume_cons_more (msg : List Nat) (type fuel head : Nat) (arr : List arraylist_t)
    (f : arraylist_t) (v : Value) (h : f.idx + 1 < f.len) :
    resume msg type fuel head (f :: arr) v
      = decodeLoop msg type fuel head (⟨f.len, f.idx + 1, f.tbl ++ [v]⟩ :: arr) := by
  simp [resume, storeLoop, h]

theorem resume_cons_last (msg : List Nat) (type fuel head : Nat) (arr : List arraylist_t)
    (f : arraylist_t) (v : Value) (h : ¬ f.idx + 1 < f.len) :
    resume msg type fuel head (f :: arr) v
      = resume msg type fuel head arr (.table (f.tbl ++ [v])) := by
  simp [resume, storeLoop, h]

mutual
theorem decodeLoop_encode2value : ∀ (v : Value) (bytes rest msg : List Nat)
    (head type fuel : Nat) (arr : List arraylist_t),
    encode2value v = .ok bytes → intOnly v = true → head ≤ msg.length →
    msg.drop head = bytes ++ rest → msg.length < 9223372036854775808 →
    decodeLoop msg type (passes v + fuel) head arr
      = resume msg type fuel (head + bytes.length) arr (decoded v)
  | .nil, bytes, rest, msg, head, type, fuel, arr, henc, _, hle, hdrop, _ => by
    simp only [encode2value, Except.ok.injEq] at henc
    subst henc
    exact decodeLoop_element msg _ rest head type fuel arr _ hle hdrop (parseElement_nil rest)
  | .boolean b, bytes, rest, msg, head, type, fuel, arr, henc, _, hle, hdrop, _ => by
    simp only [encode2value, Except.ok.injEq] at henc
    subst henc
    apply decodeLoop_element msg _ rest head type fuel arr _ hle hdrop
    cases b
    · have := parseElement_integer 0 rest (by decide) (by decide)
      rw [show decimal 0 = [48] from by decide] at this
      exact this
    · have := parseElement_integer 1 rest (by decide) (by decide)
      rw [show decimal 1 = [49] from by decide] at this
      exact this
  | .integer n, bytes, rest, msg, head, type, fuel, arr, henc, hint, hle, hdrop, _ => by
    simp only [encode2value, Except.ok.injEq] at henc
    subst henc
    simp only [intOnly, Bool.and_eq_true, decide_eq_true_eq] at hint
    apply decodeLoop_element msg _ rest head type fuel arr _ hle hdrop
    have := parseElement_integer n rest (by have := hint.1; simp only [INT_MIN, LLONG_MIN] at *; omega)
      (by have := hint.2; simp only [INT_MAX, LLONG_MAX] at *; omega)
    rw [encode2number, vaArgInt_of_int n hint.1 hint.2]
    simp only [ List.cons_append, List.append_assoc, List.singleton_append,
      List.nil_append, List.length_cons, List.length_append, List.length_nil, decoded] at this ⊢
    rw [this]
  | .string s, bytes, rest, msg, head, type, fuel, arr, henc, _, hle, hdrop, hlen => by
    simp only [encode2value] at henc
    exact decodeLoop_string s bytes rest msg head type fuel arr henc hle hdrop hlen
  | .other t, bytes, rest, msg, head, type, fuel, arr, henc, _, hle, hdrop, _ => by
    simp [encode2value] at henc
  | .table xs, bytes, rest, msg, head, type, fuel, arr, henc, hint, hle, hdrop, hlen => by
    simp only [encode2value] at henc
    cases hx : encode2values xs with
    | error e => rw [hx] at henc; simp at henc
    | ok bs =>
      rw [hx] at henc
      simp only [Except.ok.injEq] at henc
      subst henc
      simp only [intOnly] at hint
      have hml := length_of_drop_eq msg head _ hle hdrop
      have hpl := passesList_le_length xs bs hx
      have hlp := length_le_passesList xs
      simp only [List.length_append, List.length_cons, List.length_nil] at hml
      have hhead : (42 :: decimalNat xs.length ++ [CR, LF] ++ bs) ++ rest
          = 42 :: (decimalNat xs.length ++ CR :: LF :: (bs ++ rest)) := by simp
      have hp := parseElement_array xs.length (bs ++ rest)
        (by simp only [LLONG_MAX]; omega)
      rw [← hhead] at hp
      have hpa := parseElement_at msg head _ hle hdrop
      rw [hp] at hpa
      have hfuel : passes (.table xs) + fuel = (passesList xs + fuel) + 1 := by
        simp only [passes]; omega
      rw [hfuel]
      by_cases hn : 0 < xs.length
      · rw [if_pos hn] at hpa
        rw [decodeLoop_array _ _ _ _ _ _ _ hpa]
        have hdrop2 : msg.drop (head + ((decimalNat xs.length).length + 3)) = bs ++ rest := by
          have := drop_add_of_drop_eq msg head (42 :: decimalNat xs.length ++ [CR, LF]) (bs ++ rest)
            (by rw [hdrop]; simp)
          simpa using this
        have := decodeLoop_encode2values xs bs rest msg (head + ((decimalNat xs.length).length + 3))
          type fuel arr ⟨(xs.length : Int), 0, []⟩ hx hint (by intro h; simp [h] at hn)
          (by simp) (by omega) hdrop2 hlen
        rw [this]
        simp only [List.nil_append, decoded, List.length_cons, List.length_append,
          List.length_nil]
        congr 1
        omega
      · rw [if_neg hn] at hpa
        have hxs : xs = [] := List.length_eq_zero.mp (by omega)
        subst hxs
        simp only [encode2values, Except.ok.injEq] at hx
        subst hx
        rw [decodeLoop_value _ _ _ _ _ _ _ hpa]
        simp only [passesList, Nat.zero_add, decoded, decodedList, List.length_cons,
          List.length_append, List.length_nil]
theorem decodeLoop_encode2values : ∀ (xs : List Value) (bytes rest msg : List Nat)
    (head type fuel : Nat) (arr : List arraylist_t) (f : arraylist_t),
    encode2values xs = .ok bytes → intOnlyList xs = true → xs ≠ [] →
    f.idx + xs.length = f.len → head ≤ msg.length →
    msg.drop head = bytes ++ rest → msg.length < 9223372036854775808 →
    decodeLoop msg type (passesList xs + fuel) head (f :: arr)
      = resume msg type fuel (head + bytes.length) arr (.table (f.tbl ++ decodedList xs))
  | [], _, _, _, _, _, _, _, _, _, _, hne, _, _, _, _ => absurd rfl hne
  | x :: xs, bytes, rest, msg, head, type, fuel, arr, f, henc, hint, _, hf, hle, hdrop, hlen => by
    simp only [encode2values] at henc
    cases hx : encode2value x with
    | error e => rw [hx] at henc; simp at henc
    | ok b =>
      cases hxs : encode2values xs with
      | error e => rw [hx, hxs] at henc; simp at henc
      | ok bs =>
        rw [hx, hxs] at henc
        simp only [Except.ok.injEq] at henc
        subst henc
        simp only [intOnlyList, Bool.and_eq_true] at hint
        have hml := length_of_drop_eq msg head _ hle hdrop
        simp only [List.length_append] at hml
        have h1 := decodeLoop_encode2value x b (bs ++ rest) msg head type
          (passesList xs + fuel) (f :: arr) hx hint.1 hle (by rw [hdrop]; simp) hlen
        have hfuel : passesList (x :: xs) + fuel = passes x + (passesList xs + fuel) := by
          simp only [passesList]; omega
        rw [hfuel, h1]
        have hdrop2 : msg.drop (head + b.length) = bs ++ rest :=
          drop_add_of_drop_eq msg head b (bs ++ rest) (by rw [hdrop]; simp)
        simp only [List.length_cons, Nat.cast_add, Nat.cast_one] at hf
        cases xs with
        | nil =>
          simp only [encode2values, Except.ok.injEq] at hxs
          subst hxs
          rw [resume_cons_last _ _ _ _ _ _ _ (by simp at hf; omega)]
          simp [passesList, decodedList]
        | cons y ys =>
          rw [resume_cons_more _ _ _ _ _ _ _ (by simp at hf; omega)]
          have := decodeLoop_encode2values (y :: ys) bs rest msg (head + b.length) type fuel arr
            ⟨f.len, f.idx + 1, f.tbl ++ [decoded x]⟩ hxs hint.2 (by simp)
            (by simp at hf ⊢; omega) (by omega) hdrop2 hlen
          rw [this]
          simp only [List.length_append, decodedList, List.append_assoc, List.singleton_append]
          congr 1
          omega
end

theorem string_drop_one_ne (s : List Nat) (h : 1 < s.length) : s.drop 1 ≠ s := by
  intro he
  have := congrArg List.length he
  rw [List.length_drop] at this
  omega

mutual
theorem decoded_eq_iff_plain : ∀ v : Value, decoded v = v ↔ plain v = true
  | .nil => by simp [decoded, plain]
  | .boolean b => by simp [decoded, plain]
  | .integer n => by simp [decoded, plain]
  | .other t => by simp [decoded, plain]
  | .string s => by
    simp only [decoded, plain, Value.string.injEq, Bool.not_eq_true', Bool.and_eq_false_iff,
      decide_eq_false_iff_not]
    by_cases hc : byteAt s 0 = 43 ∧ 1 < s.length
    · rw [if_pos hc]
      constructor
      · intro h; exact absurd h (string_drop_one_ne s hc.2)
      · intro h
        rcases h with h | h
        · exact absurd hc.1 h
        · exact absurd hc.2 h
    · rw [if_neg hc]
      simp only [true_iff]
      by_cases h1 : byteAt s 0 = 43
      · right; exact fun h2 => hc ⟨h1, h2⟩
      · left; exact h1
  | .table xs => by
    simp only [decoded, plain, Value.table.injEq]
    exact decodedList_eq_iff_plainList xs
theorem decodedList_eq_iff_plainList : ∀ xs : List Value, decodedList xs = xs ↔ plainList xs = true
  | [] => by simp [decodedList, plainList]
  | x :: xs => by
    simp only [decodedList, plainList, List.cons.injEq, Bool.and_eq_true]
    rw [decoded_eq_iff_plain x, decodedList_eq_iff_plainList xs]
end

/-- C4 fails on the code: `: ` (colon, space) is reported as a malformed sequence, yet with the
bytes `5\r\n` appended the buffer decodes to the integer 5. -/
theorem malformed_fixed_by_more_bytes :
    decode_lua [58, 32] 0 = some (.error RESP_EILSEQ) ∧
    decode_lua ([58, 32] ++ [53, 13, 10]) 0 = some (.done (.integer 5) 5 58) := by
  decide

/-- C5 fails on the code: a number line without any digit is accepted as 0 (`:\r\n`, `:-\r\n`,
and the same for a bulk length), white space before the digits is accepted (`: 5\r\n`), and a
CRLF before the digits is skipped (`:\r\n12\r\n` is 12 with next offset 7). -/
theorem scanner_accepts_more :
    str2num [58, 13, 10] 1 = .ok (0, 3) ∧
    decode_lua [58, 13, 10] 0 = some (.done (.integer 0) 3 58) ∧
    decode_lua [58, 45, 13, 10] 0 = some (.done (.integer 0) 4 58) ∧
    decode_lua [36, 13, 10, 13, 10] 0 = some (.done (.string []) 5 36) ∧
    decode_lua [42, 13, 10] 0 = some (.done (.table []) 3 42) ∧
    str2num [58, 32, 53, 13, 10] 1 = .ok (5, 5) ∧
    decode_lua [58, 13, 10, 49, 50, 13, 10] 0 = some (.done (.integer 12) 7 58) := by
  decide

/-! ## Appending bytes to a buffer -/

theorem takeWhile_append_stop (p : Nat → Bool) (s : List Nat) (c : Nat) (e : List Nat)
    (hc : p c = false) : (s ++ c :: e).takeWhile p = s.takeWhile p := by
  induction s with
  | nil => simp [List.takeWhile_cons, hc]
  | cons a s ih =>
    by_cases ha : p a = true
    · simp [List.takeWhile_cons, ha, ih]
    · simp [List.takeWhile_cons, ha]

theorem dropWhile_append_stop (p : Nat → Bool) (s : List Nat) (c : Nat) (e : List Nat)
    (hc : p c = false) : (s ++ c :: e).dropWhile p = s.dropWhile p ++ c :: e := by
  induction s with
  | nil => simp [List.dropWhile_cons, hc]
  | cons a s ih =>
    by_cases ha : p a = true
    · simp [List.dropWhile_cons, ha, ih]
    · simp [List.dropWhile_cons, ha]

theorem signLen_le_length (s : List Nat) : signLen s ≤ s.length := by
  unfold signLen
  split <;> simp

theorem signLen_append_inert (s : List Nat) (c : Nat) (e : List Nat) (h1 : c ≠ 43)
    (h2 : c ≠ 45) : signLen (s ++ c :: e) = signLen s := by
  cases s with
  | nil =>
    simp only [List.nil_append]
    unfold signLen
    split
    · rename_i heq; simp at heq; omega
    · rename_i heq; simp at heq; omega
    · rfl
  | cons a s =>
    simp only [List.cons_append]
    unfold signLen
    split
    · rename_i heq; simp at heq; simp [heq.1]
    · rename_i heq; simp at heq; simp [heq.1]
    · rename_i h45 h43
      split
      · rename_i heq; simp at heq; exact (h45 _ (by rw [heq.1])).elim
      · rename_i heq; simp at heq; exact (h43 _ (by rw [heq.1])).elim
      · rfl

theorem head?_append_inert (s : List Nat) (c : Nat) (e : List Nat) (h2 : c ≠ 45) :
    ((s ++ c :: e).head? = some 45) ↔ (s.head? = some 45) := by
  cases s with
  | nil => simp [h2]
  | cons a s => simp

/-- Bytes appended to the subject of `strtoll` do not change its result when the first of
them is inert. -/
theorem strtoll_append_inert (s : List Nat) (c : Nat) (e : List Nat) (hc : inert c) :
    strtoll (s ++ c :: e) = strtoll s := by
  obtain ⟨hsp, hdg, h43, h45⟩ := hc
  unfold strtoll
  simp only [takeWhile_append_stop isspace s c e hsp, dropWhile_append_stop isspace s c e hsp,
    signLen_append_inert _ c e h43 h45]
  have hdrop : List.drop (signLen (List.dropWhile isspace s)) (List.dropWhile isspace s ++ c :: e)
      = List.drop (signLen (List.dropWhile isspace s)) (List.dropWhile isspace s) ++ c :: e := by
    rw [List.drop_append_of_le_length (signLen_le_length _)]
  rw [hdrop, takeWhile_append_stop isdigit _ c e hdg]
  have hh := head?_append_inert (List.dropWhile isspace s) c e h45
  by_cases h : (List.dropWhile isspace s).head? = some 45
  · simp only [hh.mpr h, h]
  · have h' : ¬ (List.dropWhile isspace s ++ c :: e).head? = some 45 := fun x => h (hh.mp x)
    simp only [h, h']

theorem geteolFrom_ok_bound (s : List Nat) (cur c : Nat) (h : geteolFrom s cur = .ok c) :
    c + 2 ≤ cur + s.length := by
  induction s generalizing cur with
  | nil => simp [geteolFrom] at h
  | cons a s ih =>
    simp only [geteolFrom] at h
    by_cases h1 : a = CR
    · rw [if_pos h1] at h
      by_cases h2 : s.headD 0 = LF
      · rw [if_pos h2] at h
        simp only [Except.ok.injEq] at h
        cases s with
        | nil => simp [LF] at h2
        | cons x s => simp only [List.length_cons]; omega
      · rw [if_neg h2] at h
        split at h <;> simp at h
    · rw [if_neg h1] at h
      by_cases h2 : a = LF
      · rw [if_pos h2] at h; simp at h
      · rw [if_neg h2] at h
        have := ih _ h
        simp only [List.length_cons]
        omega

theorem geteol_ok_lt (b : List Nat) (h c : Nat) (hg : geteol b h = .ok c) :
    h ≤ c ∧ c + 2 ≤ b.length := by
  have h1 := geteolFrom_ge _ _ _ hg
  have h2 := geteolFrom_ok_bound _ _ _ hg
  rw [List.length_drop] at h2
  omega

theorem decode2string_bound (b : List Nat) (h : Nat) (v : Value) (cur : Nat)
    (hd : decode2string b h = .ok (v, cur)) : h + 2 ≤ cur ∧ cur ≤ b.length := by
  unfold decode2string at hd
  cases hg : geteol b h with
  | error code => rw [hg] at hd; simp at hd
  | ok c =>
    rw [hg] at hd
    have hb := geteol_ok_lt b h c hg
    simp only at hd
    split at hd
    · simp only [Except.ok.injEq, Prod.mk.injEq] at hd
      omega
    · simp at hd

theorem decode2bulkstring_bound (b : List Nat) (head : Nat) (v : Value) (cur : Nat)
    (hd : decode2bulkstring b head = .ok (v, cur)) : head + 3 ≤ cur ∧ cur ≤ b.length := by
  unfold decode2bulkstring at hd
  cases hs : str2num b (head + 1) with
  | error code => rw [hs] at hd; simp at hd
  | ok r =>
    obtain ⟨n, cur0⟩ := r
    rw [hs] at hd
    have hb := str2num_le_length b (head + 1) n cur0 hs
    simp only at hd
    by_cases hn : n ≥ 0
    · rw [if_pos hn] at hd
      split at hd
      · split at hd
        · rename_i hbytes
          have h1 : cur0 + n.toNat + 1 < b.length :=
            byteAt_ne_zero_lt b _ (by rw [hbytes.2]; decide)
          simp only [Except.ok.injEq, Prod.mk.injEq] at hd
          omega
        · simp at hd
      · simp at hd
    · rw [if_neg hn] at hd
      split at hd
      · simp only [Except.ok.injEq, Prod.mk.injEq] at hd
        omega
      · simp at hd

theorem decode2integer_bound (b : List Nat) (head : Nat) (v : Value) (cur : Nat)
    (hd : decode2integer b head = .ok (v, cur)) : head + 3 ≤ cur ∧ cur ≤ b.length := by
  unfold decode2integer at hd
  cases hs : str2num b (head + 1) with
  | error code => rw [hs] at hd; simp at hd
  | ok r =>
    obtain ⟨n, cur0⟩ := r
    rw [hs] at hd
    have hb := str2num_le_length b (head + 1) n cur0 hs
    simp only [Except.ok.injEq, Prod.mk.injEq] at hd
    omega

theorem decode2array_bound (b : List Nat) (head : Nat) (v : Value) (cur : Nat) (narr : Int)
    (hd : decode2array b head = .ok (v, cur, narr)) : head + 3 ≤ cur ∧ cur ≤ b.length := by
  unfold decode2array at hd
  cases hs : str2num b (head + 1) with
  | error code => rw [hs] at hd; simp at hd
  | ok r0 =>
    obtain ⟨n, cur0⟩ := r0
    rw [hs] at hd
    have hb := str2num_le_length b (head + 1) n cur0 hs
    simp only at hd
    split at hd
    · simp only [Except.ok.injEq, Prod.mk.injEq] at hd; omega
    · split at hd
      · simp only [Except.ok.injEq, Prod.mk.injEq] at hd; omega
      · simp at hd

/-- The cursor after a decoded element, or after an array header, lies beyond its start and
within the buffer. -/
theorem parseElement_bound (b : List Nat) (head : Nat) (p : Parsed) (cur : Nat)
    (h : parseElement b head = p) (hp : (∃ v, p = .value v cur) ∨ (∃ n, p = .array n cur)) :
    head + 2 ≤ cur ∧ cur ≤ b.length := by
  subst h
  unfold parseElement at hp
  split at hp
  · simp at hp
  · split at hp
    · cases hd : decode2string b (head + 1) with
      | error code => rw [hd] at hp; simp at hp
      | ok r =>
        obtain ⟨v, c⟩ := r
        rw [hd] at hp
        have := decode2string_bound b _ v c hd
        simp at hp
        omega
    · split at hp
      · cases hd : decode2string b head with
        | error code => rw [hd] at hp; simp at hp
        | ok r =>
          obtain ⟨v, c⟩ := r
          rw [hd] at hp
          have := decode2string_bound b _ v c hd
          simp at hp
          omega
      · split at hp
        · cases hd : decode2integer b head with
          | error code => rw [hd] at hp; simp at hp
          | ok r =>
            obtain ⟨v, c⟩ := r
            rw [hd] at hp
            have := decode2integer_bound b _ v c hd
            simp at hp
            omega
        · split at hp
          · cases hd : decode2bulkstring b head with
            | error code => rw [hd] at hp; simp at hp
            | ok r =>
              obtain ⟨v, c⟩ := r
              rw [hd] at hp
              have := decode2bulkstring_bound b _ v c hd
              simp at hp
              omega
          · split at hp
            · cases hd : decode2array b head with
              | error code => rw [hd] at hp; simp at hp
              | ok r =>
                obtain ⟨v, c, n⟩ := r
                rw [hd] at hp
                have := decode2array_bound b _ v c n hd
                simp only at hp
                split at hp <;> simp at hp <;> omega
            · simp at hp

theorem nestedHeaders_length (d : Nat) : (nestedHeaders d).length = 4 * d := by
  induction d with
  | zero => rfl
  | succ d ih => simp only [nestedHeaders, List.length_cons, ih]; omega

theorem decodeLoop_nested (k : Int) (h1 : LLONG_MIN ≤ k) (h2 : k ≤ LLONG_MAX) :
    ∀ (d : Nat) (msg rest : List Nat) (head type fuel : Nat) (arr : List arraylist_t),
      head ≤ msg.length →
      msg.drop head = nestedHeaders d ++ (58 :: decimal k ++ [CR, LF]) ++ rest →
      decodeLoop msg type (d + 1 + fuel) head arr
        = resume msg type fuel (head + 4 * d + ((decimal k).length + 3)) arr
            (nestedValue d (.integer k)) := by
  intro d
  induction d with
  | zero =>
    intro msg rest head type fuel arr hle hdrop
    simp only [nestedHeaders, List.nil_append] at hdrop
    have hp : parseElement ((58 :: decimal k ++ [CR, LF]) ++ rest) 0
        = .value (.integer k) (58 :: decimal k ++ [CR, LF]).length := by
      have := parseElement_integer k rest h1 h2
      simp only [List.cons_append, List.append_assoc, List.singleton_append, List.nil_append,
        List.length_cons, List.length_append, List.length_nil] at this ⊢
      exact this
    have := decodeLoop_element msg _ rest head type fuel arr _ hle hdrop hp
    simp only [Nat.zero_add, Nat.mul_zero, Nat.add_zero, nestedValue]
    rw [this]
    simp
  | succ d ih =>
    intro msg rest head type fuel arr hle hdrop
    have hdrop1 : msg.drop head
        = 42 :: (decimalNat 1 ++ CR :: LF :: (nestedHeaders d ++ (58 :: decimal k ++ [CR, LF]) ++ rest)) := by
      rw [hdrop, show decimalNat 1 = [49] from by decide]
      simp [nestedHeaders]
    have hp := parseElement_array 1 (nestedHeaders d ++ (58 :: decimal k ++ [CR, LF]) ++ rest)
      (by decide)
    rw [if_pos (by decide), show decimalNat 1 = [49] from by decide] at hp
    have hpa := parseElement_at msg head _ hle
      (by rw [hdrop1, show decimalNat 1 = [49] from by decide])
    rw [hp] at hpa
    have hml := length_of_drop_eq msg head _ hle hdrop1
    have hdrop2 : msg.drop (head + 4)
        = nestedHeaders d ++ (58 :: decimal k ++ [CR, LF]) ++ rest := by
      have := drop_add_of_drop_eq msg head [42, 49, CR, LF]
        (nestedHeaders d ++ (58 :: decimal k ++ [CR, LF]) ++ rest)
        (by rw [hdrop]; simp [nestedHeaders])
      simpa using this
    have hfuel : d + 1 + 1 + fuel = (d + 1 + fuel) + 1 := by omega
    rw [hfuel, decodeLoop_array _ _ _ _ _ _ _ hpa]
    simp only [Parsed.shift, List.length_cons, List.length_nil] at *
    have hih := ih msg rest (head + 4) type fuel (⟨((1 : Nat) : Int), 0, []⟩ :: arr)
      (by simp only [List.length_append, List.length_cons] at hml; omega) hdrop2
    have e4 : head + (0 + 1 + 3) = head + 4 := by omega
    rw [e4, hih, resume_cons_last _ _ _ _ _ _ _ (by simp)]
    simp only [nestedValue, List.nil_append]
    congr 1
    omega

/-- The frames themselves put no bound on the depth: as long as the Lua stack has room (see
`stackAfter`), the buffer made of `d` copies of `*1\r\n` followed by `:`, the decimal of an
`int64_t` `k` and CRLF decodes at offset 0 to the integer `k` wrapped in `d` one-element
tables; the next offset is the length of the buffer and the type tag is `*` when `d > 0` and
`:` when `d = 0`. -/
theorem nesting_depth (d : Nat) (k : Int) (h1 : LLONG_MIN ≤ k) (h2 : k ≤ LLONG_MAX) :
    decode_lua (nestedHeaders d ++ (58 :: decimal k ++ [CR, LF])) 0
      = some (.done (nestedValue d (.integer k))
          (nestedHeaders d ++ (58 :: decimal k ++ [CR, LF])).length
          (if d = 0 then 58 else 42)) := by
  have hlen : (nestedHeaders d ++ (58 :: decimal k ++ [CR, LF])).length
      = 4 * d + ((decimal k).length + 3) := by
    simp only [List.length_append, List.length_cons, List.length_nil, nestedHeaders_length]
  have htype : byteAt (nestedHeaders d ++ (58 :: decimal k ++ [CR, LF])) 0
      = if d = 0 then 58 else 42 := by
    cases d with
    | zero => simp [nestedHeaders, byteAt]
    | succ d => simp [nestedHeaders, byteAt]
  have hfuel : (nestedHeaders d ++ (58 :: decimal k ++ [CR, LF])).length + 1
      = d + 1 + (3 * d + ((decimal k).length + 3)) := by
    rw [hlen]; omega
  unfold decode_lua
  rw [htype, hfuel, decodeLoop_nested k h1 h2 d _ [] 0 _ _ [] (Nat.zero_le _) (by simp), hlen]
  simp [resume, storeLoop]

theorem driverStates_succ (msg : List Nat) (fuel head : Nat) (arr : List arraylist_t) :
    driverStates msg (fuel + 1) head arr =
      (head, arr) ::
        match parseElement msg head with
        | .failed _ => []
        | .array narr cur => driverStates msg fuel cur (⟨narr, 0, []⟩ :: arr)
        | .value v cur =>
          match storeLoop arr v with
          | .inl arr1 => driverStates msg fuel cur arr1
          | .inr _ => [] := by
  rw [driverStates]

/-- On `d` headers `*1\r\n` followed by an integer the driver reaches the integer with `d`
more frames than it started with. -/
theorem driverStates_nested (k : Int) (h1 : LLONG_MIN ≤ k) (h2 : k ≤ LLONG_MAX) :
    ∀ (d : Nat) (msg rest : List Nat) (head fuel : Nat) (arr : List arraylist_t),
      head ≤ msg.length →
      msg.drop head = nestedHeaders d ++ (58 :: decimal k ++ [CR, LF]) ++ rest →
      ∃ st ∈ driverStates msg (d + 1 + fuel) head arr,
        st.2.length = arr.length + d ∧
        parseElement msg st.1
          = .value (.integer k) (head + 4 * d + ((decimal k).length + 3)) := by
  intro d
  induction d with
  | zero =>
    intro msg rest head fuel arr hle hdrop
    simp only [nestedHeaders, List.nil_append] at hdrop
    have hp : parseElement ((58 :: decimal k ++ [CR, LF]) ++ rest) 0
        = .value (.integer k) (58 :: decimal k ++ [CR, LF]).length := by
      have := parseElement_integer k rest h1 h2
      simp only [List.cons_append, List.append_assoc, List.singleton_append, List.nil_append,
        List.length_cons, List.length_append, List.length_nil] at this ⊢
      exact this
    have hpa := parseElement_at msg head _ hle hdrop
    rw [hp] at hpa
    refine ⟨(head, arr), ?_, rfl, ?_⟩
    · rw [show 0 + 1 + fuel = fuel + 1 from by omega, driverStates_succ]
      exact List.mem_cons_self _ _
    · rw [hpa]
      simp only [Parsed.shift, List.length_cons, List.length_append, List.length_nil]
      congr 1
  | succ d ih =>
    intro msg rest head fuel arr hle hdrop
    have hdrop1 : msg.drop head
        = 42 :: (decimalNat 1 ++ CR :: LF :: (nestedHeaders d ++ (58 :: decimal k ++ [CR, LF]) ++ rest)) := by
      rw [hdrop, show decimalNat 1 = [49] from by decide]
      simp [nestedHeaders]
    have hp := parseElement_array 1 (nestedHeaders d ++ (58 :: decimal k ++ [CR, LF]) ++ rest)
      (by decide)
    rw [if_pos (by decide), show decimalNat 1 = [49] from by decide] at hp
    have hpa := parseElement_at msg head _ hle
      (by rw [hdrop1, show decimalNat 1 = [49] from by decide])
    rw [hp] at hpa
    have hml := length_of_drop_eq msg head _ hle hdrop1
    have hdrop2 : msg.drop (head + 4)
        = nestedHeaders d ++ (58 :: decimal k ++ [CR, LF]) ++ rest := by
      have := drop_add_of_drop_eq msg head [42, 49, CR, LF]
        (nestedHeaders d ++ (58 :: decimal k ++ [CR, LF]) ++ rest)
        (by rw [hdrop]; simp [nestedHeaders])
      simpa using this
    simp only [Parsed.shift, List.length_cons, List.length_nil] at hpa
    obtain ⟨st, hst, hlen, hpst⟩ := ih msg rest (head + 4) fuel (⟨((1 : Nat) : Int), 0, []⟩ :: arr)
      (by simp only [List.length_append, List.length_cons] at hml; omega) hdrop2
    refine ⟨st, ?_, ?_, ?_⟩
    · rw [show d + 1 + 1 + fuel = (d + 1 + fuel) + 1 from by omega, driverStates_succ, hpa]
      exact List.mem_cons_of_mem _ hst
    · rw [hlen, List.length_cons]; omega
    · rw [hpst]; congr 1; omega

/-- C11: nesting is bounded by the Lua stack.  On the buffer made of `d` copies of `*1\r\n`
followed by `:`, the decimal of an `int64_t` `k` and CRLF, the driver started at offset 0
reaches the integer with `d` frames open, and pushing it brings the Lua stack to `2 d + 3`
values.  A call with the message and the offset is guaranteed `2 + LUA_MINSTACK` slots and
`decode_lua` never calls `lua_checkstack`, so from depth 10 on the push lands beyond the
guaranteed stack. -/
theorem nesting_overruns_stack (d : Nat) (k : Int) (h1 : LLONG_MIN ≤ k) (h2 : k ≤ LLONG_MAX)
    (hd : 10 ≤ d) :
    ∃ st ∈ driverStates (nestedHeaders d ++ (58 :: decimal k ++ [CR, LF]))
        ((nestedHeaders d ++ (58 :: decimal k ++ [CR, LF])).length + 1) 0 [],
      st.2.length = d ∧
      stackAfter (nestedHeaders d ++ (58 :: decimal k ++ [CR, LF])) st = 2 * d + 3 ∧
      2 + LUA_MINSTACK < stackAfter (nestedHeaders d ++ (58 :: decimal k ++ [CR, LF])) st := by
  have hlen : (nestedHeaders d ++ (58 :: decimal k ++ [CR, LF])).length
      = 4 * d + ((decimal k).length + 3) := by
    simp only [List.length_append, List.length_cons, List.length_nil, nestedHeaders_length]
  have hfuel : (nestedHeaders d ++ (58 :: decimal k ++ [CR, LF])).length + 1
      = d + 1 + (3 * d + ((decimal k).length + 3)) := by
    rw [hlen]; omega
  obtain ⟨st, hst, hl, hp⟩ := driverStates_nested k h1 h2 d
    (nestedHeaders d ++ (58 :: decimal k ++ [CR, LF])) [] 0
    (3 * d + ((decimal k).length + 3)) [] (Nat.zero_le _) (by simp)
  rw [← hfuel] at hst
  simp only [List.length_nil, Nat.zero_add] at hl
  have hs : stackAfter (nestedHeaders d ++ (58 :: decimal k ++ [CR, LF])) st = 2 * d + 3 := by
    unfold stackAfter
    rw [hp]
    simp only [stackTop, hl]
    omega
  refine ⟨st, hst, hl, hs, ?_⟩
  rw [hs]
  simp only [LUA_MINSTACK]
  omega

/-- Instance of C11 at depth 10000 with the integer 7: the push of the integer is the
20003rd value on the Lua stack. -/
theorem nesting_overruns_stack_witness :
    ∃ st ∈ driverStates (nestedHeaders 10000 ++ (58 :: decimal 7 ++ [CR, LF]))
        ((nestedHeaders 10000 ++ (58 :: decimal 7 ++ [CR, LF])).length + 1) 0 [],
      st.2.length = 10000 ∧
      stackAfter (nestedHeaders 10000 ++ (58 :: decimal 7 ++ [CR, LF])) st = 2 * 10000 + 3 ∧
      2 + LUA_MINSTACK < stackAfter (nestedHeaders 10000 ++ (58 :: decimal 7 ++ [CR, LF])) st :=
  nesting_overruns_stack 10000 7 (by decide) (by decide) (by decide)

/-! ## Encoding arrays and commands (C12, C15) -/

theorem encode2values_cons (x : Value) (xs : List Value) :
    encode2values (x :: xs) =
      match encode2value x with
      | .error err => .error err
      | .ok b =>
        match encode2values xs with
        | .error err => .error err
        | .ok bytes => .ok (b ++ bytes) := by
  rw [encode2values]

theorem encode2value_table (xs : List Value) :
    encode2value (.table xs) =
      match encode2values xs with
      | .ok bytes => .ok (42 :: decimalNat xs.length ++ [CR, LF] ++ bytes)
      | .error err => .error err := by
  rw [encode2value]

/-- When every element encodes, the loop yields the encodings in order. -/
theorem encode2values_ok (xs : List Value) (bs : List (List Nat))
    (h : List.Forall₂ (fun v b => encode2value v = .ok b) xs bs) :
    encode2values xs = .ok bs.flatten := by
  induction h with
  | nil => simp [encode2values]
  | cons hx _ ih =>
    rw [encode2values_cons, hx, ih]
    simp

/-- The loop stops at the first element that fails, with its error. -/
theorem encode2values_first_error (pre : List Value) (x : Value) (post : List Value)
    (err : String) (hpre : ∀ y ∈ pre, ∃ b, encode2value y = .ok b)
    (hx : encode2value x = .error err) :
    encode2values (pre ++ x :: post) = .error err := by
  induction pre with
  | nil => rw [List.nil_append, encode2values_cons, hx]
  | cons y pre ih =>
    obtain ⟨b, hb⟩ := hpre y (by simp)
    rw [List.cons_append, encode2values_cons, hb, ih (fun z hz => hpre z (by simp [hz]))]

/-- The loop either yields the encodings of all the elements or fails at a first element. -/
theorem encode2values_cases (xs : List Value) :
    (∃ bs, List.Forall₂ (fun v b => encode2value v = .ok b) xs bs) ∨
    (∃ pre x post err, xs = pre ++ x :: post ∧ (∀ y ∈ pre, ∃ b, encode2value y = .ok b) ∧
      encode2value x = .error err) := by
  induction xs with
  | nil => exact Or.inl ⟨[], List.Forall₂.nil⟩
  | cons x xs ih =>
    cases hx : encode2value x with
    | error err => exact Or.inr ⟨[], x, xs, err, rfl, by simp, hx⟩
    | ok b =>
      rcases ih with ⟨bs, hbs⟩ | ⟨pre, y, post, err, hxs, hpre, hy⟩
      · exact Or.inl ⟨b :: bs, List.Forall₂.cons hx hbs⟩
      · refine Or.inr ⟨x :: pre, y, post, err, by rw [hxs]; rfl, ?_, hy⟩
        intro z hz
        rcases List.mem_cons.mp hz with rfl | hz
        · exact ⟨b, hx⟩
        · exact hpre z hz

/-- C12: command framing.  `encode2array` of no argument is the empty byte sequence; of a
non-empty argument list whose elements all encode it is `*`, the decimal of the number of
arguments, CRLF, and the encodings of the arguments in order. -/
theorem command_framing :
    encode2array_lua [] = .ok [] ∧
    ∀ (args : List Value) (bs : List (List Nat)), args ≠ [] →
      List.Forall₂ (fun v b => encode2value v = .ok b) args bs →
      encode2array_lua args = .ok (42 :: decimalNat args.length ++ [CR, LF] ++ bs.flatten) := by
  refine ⟨rfl, ?_⟩
  intro args bs hne h
  unfold encode2array_lua
  rw [if_neg (by intro h0; exact hne (List.length_eq_zero.mp h0)), encode2values_ok args bs h]

/-- Instance of C12: `encode2array("SET", "k", "v")` is `*3\r\n$3\r\nSET\r\n$1\r\nk\r\n$1\r\nv\r\n`. -/
theorem command_framing_witness :
    encode2array_lua [.string [83, 69, 84], .string [107], .string [118]]
      = .ok [42, 51, 13, 10, 36, 51, 13, 10, 83, 69, 84, 13, 10, 36, 49, 13, 10, 107, 13, 10,
          36, 49, 13, 10, 118, 13, 10] :=
  command_framing.2 [.string [83, 69, 84], .string [107], .string [118]]
    [[36, 51, 13, 10, 83, 69, 84, 13, 10], [36, 49, 13, 10, 107, 13, 10],
      [36, 49, 13, 10, 118, 13, 10]]
    (by decide)
    (List.Forall₂.cons (by decide) (List.Forall₂.cons (by decide)
      (List.Forall₂.cons (by decide) List.Forall₂.nil)))

/-- C15: encoding a table.  It fails exactly when some element fails to encode, and then with
the error of the first failing element; otherwise the output is `*`, the decimal of the number
of elements, CRLF, and the encodings of the elements in order (`*0\r\n` for the empty table). -/
theorem array_encoding (xs : List Value) :
    ((∃ err, encode_lua [.table xs] = .error err) ↔
      ∃ x ∈ xs, ∃ err, encode2value x = .error err) ∧
    (∀ (pre : List Value) (x : Value) (post : List Value) (err : String),
      xs = pre ++ x :: post → (∀ y ∈ pre, ∃ b, encode2value y = .ok b) →
      encode2value x = .error err → encode_lua [.table xs] = .error err) ∧
    (∀ bs : List (List Nat), List.Forall₂ (fun v b => encode2value v = .ok b) xs bs →
      encode_lua [.table xs] = .ok (42 :: decimalNat xs.length ++ [CR, LF] ++ bs.flatten)) := by
  have hdef : encode_lua [.table xs] = encode2value (.table xs) := rfl
  have hfirst : ∀ (pre : List Value) (x : Value) (post : List Value) (err : String),
      xs = pre ++ x :: post → (∀ y ∈ pre, ∃ b, encode2value y = .ok b) →
      encode2value x = .error err → encode_lua [.table xs] = .error err := by
    intro pre x post err hxs hpre hx
    rw [hdef, encode2value_table, hxs, encode2values_first_error pre x post err hpre hx]
  have hok : ∀ bs : List (List Nat), List.Forall₂ (fun v b => encode2value v = .ok b) xs bs →
      encode_lua [.table xs] = .ok (42 :: decimalNat xs.length ++ [CR, LF] ++ bs.flatten) := by
    intro bs h
    rw [hdef, encode2value_table, encode2values_ok xs bs h]
  refine ⟨⟨?_, ?_⟩, hfirst, hok⟩
  · rintro ⟨err, herr⟩
    rcases encode2values_cases xs with ⟨bs, hbs⟩ | ⟨pre, x, post, e, hxs, _, hx⟩
    · rw [hok bs hbs] at herr
      simp at herr
    · exact ⟨x, by rw [hxs]; simp, e, hx⟩
  · rintro ⟨x, hx, err, herr⟩
    rcases encode2values_cases xs with ⟨bs, hbs⟩ | ⟨pre, y, post, e, hxs, hpre, hy⟩
    · exfalso
      have : ∀ (l : List Value) (m : List (List Nat)),
          List.Forall₂ (fun v b => encode2value v = .ok b) l m → x ∈ l → False := by
        intro l m hlm
        induction hlm with
        | nil => simp
        | cons ha _ ih =>
          intro hmem
          rcases List.mem_cons.mp hmem with rfl | hmem
          · rw [herr] at ha; simp at ha
          · exact ih hmem
      exact this xs bs hbs hx
    · exact ⟨e, hfirst pre y post e hxs hpre hy⟩

/-- Instance of C15: in the table `{1, "a\n", f}` the second element is the first to fail, and
the table fails with its error. -/
theorem array_encoding_witness :
    encode_lua [.table [.integer 1, .string [97, 10], .other false]]
      = .error "string cannot containe a CR or LF" :=
  (array_encoding [.integer 1, .string [97, 10], .other false]).2.1
    [.integer 1] (.string [97, 10]) [.other false] "string cannot containe a CR or LF" rfl
    (fun y hy => ⟨[58, 49, 13, 10], by
      rw [List.mem_singleton] at hy
      subst hy
      rfl⟩)
    (by decide)

/-! ## Encoding strings and the length cap (C13, C14) -/

theorem any_crlf_iff (t : List Nat) :
    (t.any fun c => decide (c = CR) || decide (c = LF)) = true ↔ (CR ∈ t ∨ LF ∈ t) := by
  simp only [List.any_eq_true, Bool.or_eq_true, decide_eq_true_eq]
  constructor
  · rintro ⟨c, hc, rfl | rfl⟩
    · exact Or.inl hc
    · exact Or.inr hc
  · rintro (h | h)
    · exact ⟨CR, h, Or.inl rfl⟩
    · exact ⟨LF, h, Or.inr rfl⟩

/-- What `encode2string` returns for a string within the length cap. -/
theorem encode2string_eq (s : List Nat) (hlen : s.length ≤ BSTR_MAXLEN) :
    encode2string s =
      if CR ∈ s ∨ LF ∈ s then .error "string cannot containe a CR or LF"
      else if (byteAt s 0 = 43 ∨ byteAt s 0 = 45) ∧ 2 ≤ s.length then .ok (s ++ [CR, LF])
      else .ok (36 :: decimalNat s.length ++ [CR, LF] ++ s ++ [CR, LF]) := by
  unfold encode2string
  rw [if_neg (by omega)]
  by_cases hs : byteAt s 0 = 43 ∨ byteAt s 0 = 45
  · have hdec : (decide (byteAt s 0 = 43) || decide (byteAt s 0 = 45)) = true := by
      simpa using hs
    cases s with
    | nil => simp [byteAt] at hs
    | cons c t =>
      rw [byteAt_cons_zero] at hs
      have hmem : (CR ∈ c :: t ∨ LF ∈ c :: t) ↔ (CR ∈ t ∨ LF ∈ t) := by
        have h1 : c ≠ CR := by rcases hs with rfl | rfl <;> decide
        have h2 : c ≠ LF := by rcases hs with rfl | rfl <;> decide
        simp only [List.mem_cons]
        constructor
        · rintro ((h | h) | (h | h))
          · exact absurd h.symm h1
          · exact Or.inl h
          · exact absurd h.symm h2
          · exact Or.inr h
        · rintro (h | h)
          · exact Or.inl (Or.inr h)
          · exact Or.inr (Or.inr h)
      simp only [hdec, if_true, List.drop_succ_cons, List.drop_zero, Bool.true_and,
        List.length_cons]
      by_cases hany : CR ∈ t ∨ LF ∈ t
      · rw [if_pos ((any_crlf_iff t).mpr hany), if_pos (hmem.mpr hany)]
      · rw [if_neg (fun h => hany ((any_crlf_iff t).mp h)), if_neg (fun h => hany (hmem.mp h))]
        rw [byteAt_cons_zero]
        by_cases hl : 1 < t.length + 1
        · have h2 : (c = 43 ∨ c = 45) ∧ 2 ≤ t.length + 1 := ⟨hs, by omega⟩
          rw [if_pos h2]
          simp [hl]
        · have h2 : ¬ ((c = 43 ∨ c = 45) ∧ 2 ≤ t.length + 1) := fun h => hl (by omega)
          rw [if_neg h2]
          simp [hl]
  · have hdec : (decide (byteAt s 0 = 43) || decide (byteAt s 0 = 45)) = false := by
      simpa using hs
    have h2 : ¬ ((byteAt s 0 = 43 ∨ byteAt s 0 = 45) ∧ 2 ≤ s.length) := fun h => hs h.1
    simp only [hdec, Bool.false_eq_true, if_false, List.drop_zero, Bool.false_and,
      Bool.not_false, if_true]
    rw [if_neg h2]
    by_cases hany : CR ∈ s ∨ LF ∈ s
    · rw [if_pos ((any_crlf_iff s).mpr hany), if_pos hany]
    · rw [if_neg (fun h => hany ((any_crlf_iff s).mp h)), if_neg hany]

/-- C13: string encoding is determined by the content.  For a string `s` of at most
536,870,912 bytes, `encode(s)` fails with the CR/LF error exactly when `s` holds a CR or LF
byte; otherwise the output is `s` and CRLF when `s` starts with `+` or `-` and has at least
two bytes, and `$`, the decimal of `|s|`, CRLF, `s`, CRLF in every other case. -/
theorem string_encoding (s : List Nat) (hlen : s.length ≤ BSTR_MAXLEN) :
    (encode_lua [.string s] = .error "string cannot containe a CR or LF" ↔ (CR ∈ s ∨ LF ∈ s)) ∧
    (¬ (CR ∈ s ∨ LF ∈ s) →
      encode_lua [.string s] =
        .ok (if (byteAt s 0 = 43 ∨ byteAt s 0 = 45) ∧ 2 ≤ s.length then s ++ [CR, LF]
          else 36 :: decimalNat s.length ++ [CR, LF] ++ s ++ [CR, LF])) := by
  have hdef : encode_lua [.string s] = encode2string s := rfl
  rw [hdef, encode2string_eq s hlen]
  constructor
  · constructor
    · intro h
      by_contra hc
      rw [if_neg hc] at h
      split at h <;> simp at h
    · intro h
      rw [if_pos h]
  · intro h
    rw [if_neg h]
    split <;> rfl

/-- Instance of C13: the strings `-ERR`, `+`, the empty string and `a\rb`. -/
theorem string_encoding_witness :
    encode_lua [.string [45, 69, 82, 82]] = .ok [45, 69, 82, 82, 13, 10] ∧
    encode_lua [.string [43]] = .ok [36, 49, 13, 10, 43, 13, 10] ∧
    encode_lua [.string []] = .ok [36, 48, 13, 10, 13, 10] ∧
    encode_lua [.string [97, 13, 98]] = .error "string cannot containe a CR or LF" :=
  ⟨(string_encoding [45, 69, 82, 82] (by decide)).2 (by decide),
   (string_encoding [43] (by decide)).2 (by decide),
   (string_encoding [] (by decide)).2 (by decide),
   (string_encoding [97, 13, 98] (by decide)).1.mpr (by decide)⟩

/-- C14: the length cap of the encoder.  `encode(s)` fails with the error
`string length must be up to 512 MB` exactly when `s` has more than 536,870,912 bytes,
whatever the content of `s`. -/
theorem string_length_cap (s : List Nat) :
    (s.length > BSTR_MAXLEN →
      encode_lua [.string s] = .error "string length must be up to 512 MB") ∧
    (s.length ≤ BSTR_MAXLEN →
      encode_lua [.string s] ≠ .error "string length must be up to 512 MB") := by
  have hdef : encode_lua [.string s] = encode2string s := rfl
  constructor
  · intro h
    rw [hdef]
    unfold encode2string
    rw [if_pos h]
  · intro h
    rw [hdef, encode2string_eq s h]
    split
    · decide
    · split <;> simp

/-- Instance of C14: a string of 536,870,913 bytes, here all CR, fails with the length-cap
error, not with the CR/LF error. -/
theorem string_length_cap_witness :
    encode_lua [.string (List.replicate 536870913 13)]
      = .error "string length must be up to 512 MB" :=
  (string_length_cap (List.replicate 536870913 13)).1
    (by rw [List.length_replicate]; decide)

/-! ## The frames of the driver (C16) -/

theorem parseElement_array_pos (msg : List Nat) (head : Nat) (narr : Int) (cur : Nat)
    (h : parseElement msg head = .array narr cur) : 0 < narr := by
  unfold parseElement at h
  split at h
  · simp at h
  · split at h
    · split at h <;> simp at h
    · split at h
      · split at h <;> simp at h
      · split at h
        · split at h <;> simp at h
        · split at h
          · split at h <;> simp at h
          · split at h
            · split at h
              · rename_i v c n _
                split at h
                · rename_i hn
                  simp only [Parsed.array.injEq] at h
                  omega
                · simp at h
              · simp at h
            · simp at h

theorem storeLoop_framesOk (arr arr1 : List arraylist_t) (v : Value) (hok : framesOk arr)
    (h : storeLoop arr v = .inl arr1) : framesOk arr1 := by
  induction arr generalizing v with
  | nil => simp [storeLoop] at h
  | cons f prev ih =>
    have hprev : framesOk prev := fun g hg => hok g (List.mem_cons_of_mem _ hg)
    have hf := hok f (List.mem_cons_self _ _)
    simp only [storeLoop] at h
    by_cases hlt : f.idx + 1 < f.len
    · rw [if_pos hlt] at h
      simp only [Sum.inl.injEq] at h
      subst h
      intro g hg
      rcases List.mem_cons.mp hg with rfl | hg
      · exact ⟨by simp only; omega, by simp only; omega⟩
      · exact hprev g hg
    · rw [if_neg hlt] at h
      exact ih _ hprev h

theorem driverStates_framesOk (msg : List Nat) :
    ∀ (fuel head : Nat) (arr : List arraylist_t), framesOk arr →
      ∀ st ∈ driverStates msg fuel head arr, framesOk st.2 := by
  intro fuel
  induction fuel with
  | zero => intro head arr _ st hst; simp [driverStates] at hst
  | succ fuel ih =>
    intro head arr hok st hst
    simp only [driverStates, List.mem_cons] at hst
    rcases hst with rfl | hst
    · exact hok
    · cases hp : parseElement msg head with
      | failed code => rw [hp] at hst; simp at hst
      | array narr cur =>
        rw [hp] at hst
        have hpos := parseElement_array_pos msg head narr cur hp
        refine ih cur _ ?_ st hst
        intro g hg
        rcases List.mem_cons.mp hg with rfl | hg
        · exact ⟨by simp, hpos⟩
        · exact hok g hg
      | value v cur =>
        rw [hp] at hst
        simp only at hst
        cases hs : storeLoop arr v with
        | inr top => rw [hs] at hst; simp at hst
        | inl arr1 =>
          rw [hs] at hst
          exact ih cur arr1 (storeLoop_framesOk arr arr1 v hok hs) st hst

/-- C16: the array-frame invariant.  In every state in which the driver passes
`PARSE_ELEMENT`, on any buffer and from any offset, every frame has `remaining > 0` and
`0 ≤ index < remaining`, so that after the `idx++` of the `while` loop `index ≤ remaining`;
and the loop keeps a frame when the incremented index is below `remaining` and pops it
exactly when the incremented index equals `remaining`. -/
theorem frame_invariant (msg : List Nat) (offset : Nat) :
    ∀ st ∈ driverStates msg (msg.length + 1) offset [],
      (∀ f ∈ st.2, 0 < f.len ∧ 0 ≤ f.idx ∧ f.idx < f.len ∧ f.idx + 1 ≤ f.len) ∧
      (∀ (pre : List arraylist_t) (f : arraylist_t) (prev : List arraylist_t) (v : Value),
        st.2 = pre ++ f :: prev →
        (f.idx + 1 < f.len ∨ f.idx + 1 = f.len) ∧
        (f.idx + 1 < f.len →
          storeLoop (f :: prev) v = .inl (⟨f.len, f.idx + 1, f.tbl ++ [v]⟩ :: prev)) ∧
        (f.idx + 1 = f.len →
          storeLoop (f :: prev) v = storeLoop prev (.table (f.tbl ++ [v])))) := by
  intro st hst
  have hok := driverStates_framesOk msg _ offset [] (by intro f hf; simp at hf) st hst
  constructor
  · intro f hf
    have := hok f hf
    omega
  · intro pre f prev v hst2
    have hf := hok f (by rw [hst2]; simp)
    refine ⟨by omega, ?_, ?_⟩
    · intro hlt
      simp [storeLoop, hlt]
    · intro heq
      have hlt : ¬ f.idx + 1 < f.len := by omega
      simp [storeLoop, hlt]

/-- Instance of C16 on `*2\r\n*1\r\n:1\r\n:2\r\n`: the state at offset 12, with one frame of
two elements of which one is stored, is reached, and its frame satisfies the invariant. -/
theorem frame_invariant_witness :
    (12, [(⟨2, 1, [.table [.integer 1]]⟩ : arraylist_t)])
      ∈ driverStates [42, 50, 13, 10, 42, 49, 13, 10, 58, 49, 13, 10, 58, 50, 13, 10]
          ([42, 50, 13, 10, 42, 49, 13, 10, 58, 49, 13, 10, 58, 50, 13, 10].length + 1) 0 [] ∧
    ∀ f ∈ [(⟨2, 1, [.table [.integer 1]]⟩ : arraylist_t)],
      0 < f.len ∧ 0 ≤ f.idx ∧ f.idx < f.len ∧ f.idx + 1 ≤ f.len :=
  have hmem : (12, [(⟨2, 1, [.table [.integer 1]]⟩ : arraylist_t)])
      ∈ driverStates [42, 50, 13, 10, 42, 49, 13, 10, 58, 49, 13, 10, 58, 50, 13, 10]
          ([42, 50, 13, 10, 42, 49, 13, 10, 58, 49, 13, 10, 58, 50, 13, 10].length + 1) 0 [] := by
    show _ ∈ [(0, []), (4, [(⟨2, 0, []⟩ : arraylist_t)]),
      (8, [(⟨1, 0, []⟩ : arraylist_t), ⟨2, 0, []⟩]), (12, [⟨2, 1, [.table [.integer 1]]⟩])]
    simp
  ⟨hmem, (frame_invariant _ 0 _ hmem).1⟩

/-! ## Progress and bounds (C20) -/

theorem filter_length_cons (p : Nat × List arraylist_t → Bool) (a : Nat × List arraylist_t)
    (l : List (Nat × List arraylist_t)) :
    ((a :: l).filter p).length = (if p a = true then 1 else 0) + (l.filter p).length := by
  rw [List.filter_cons]
  split
  · simp only [List.length_cons]; omega
  · simp

theorem storeLoop_eq_resume (msg : List Nat) (type fuel head : Nat) (arr : List arraylist_t)
    (v : Value) :
    resume msg type fuel head arr v =
      match storeLoop arr v with
      | .inl arr1 => decodeLoop msg type fuel head arr1
      | .inr top => some (.done top head type) := rfl

/-- With `len - head + 1` passes or more the driver never runs out of fuel. -/
theorem decodeLoop_total (msg : List Nat) (type : Nat) :
    ∀ (fuel head : Nat) (arr : List arraylist_t), head ≤ msg.length →
      msg.length - head + 1 ≤ fuel → ∃ out, decodeLoop msg type fuel head arr = some out := by
  intro fuel
  induction fuel with
  | zero => intro head arr _ h; omega
  | succ fuel ih =>
    intro head arr hle hf
    rw [decodeLoop_succ]
    cases hp : parseElement msg head with
    | failed code => exact ⟨_, rfl⟩
    | array narr cur =>
      have hb := parseElement_bound msg head _ cur hp (Or.inr ⟨narr, rfl⟩)
      exact ih cur _ hb.2 (by omega)
    | value v cur =>
      have hb := parseElement_bound msg head _ cur hp (Or.inl ⟨v, rfl⟩)
      simp only [storeLoop_eq_resume]
      cases storeLoop arr v with
      | inr top => exact ⟨_, rfl⟩
      | inl arr1 => exact ih cur arr1 hb.2 (by omega)

/-- A successful run ends beyond the cursor it started at, within the buffer. -/
theorem decodeLoop_done_bound (msg : List Nat) (type : Nat) :
    ∀ (fuel head : Nat) (arr : List arraylist_t) (v : Value) (next t : Nat),
      decodeLoop msg type fuel head arr = some (.done v next t) →
      head + 2 ≤ next ∧ next ≤ msg.length := by
  intro fuel
  induction fuel with
  | zero => intro head arr v next t h; simp [decodeLoop] at h
  | succ fuel ih =>
    intro head arr v next t h
    rw [decodeLoop_succ] at h
    cases hp : parseElement msg head with
    | failed code => rw [hp] at h; simp at h
    | array narr cur =>
      rw [hp] at h
      have hb := parseElement_bound msg head _ cur hp (Or.inr ⟨narr, rfl⟩)
      have := ih cur _ v next t h
      omega
    | value w cur =>
      rw [hp] at h
      have hb := parseElement_bound msg head _ cur hp (Or.inl ⟨w, rfl⟩)
      simp only [storeLoop_eq_resume] at h
      cases hs : storeLoop arr w with
      | inr top =>
        rw [hs] at h
        simp only [Option.some.injEq, DecodeOutcome.done.injEq] at h
        omega
      | inl arr1 =>
        rw [hs] at h
        have := ih cur arr1 v next t h
        omega

theorem driverStates_step_bound (msg : List Nat) :
    ∀ (fuel head : Nat) (arr : List arraylist_t),
      ∀ st ∈ driverStates msg fuel head arr, head ≤ st.1 := by
  intro fuel
  induction fuel with
  | zero => intro head arr st hst; simp [driverStates] at hst
  | succ fuel ih =>
    intro head arr st hst
    simp only [driverStates, List.mem_cons] at hst
    rcases hst with rfl | hst
    · exact Nat.le_refl _
    · cases hp : parseElement msg head with
      | failed code => rw [hp] at hst; simp at hst
      | array narr cur =>
        rw [hp] at hst
        have hb := parseElement_bound msg head _ cur hp (Or.inr ⟨narr, rfl⟩)
        have := ih cur _ st hst
        omega
      | value v cur =>
        rw [hp] at hst
        have hb := parseElement_bound msg head _ cur hp (Or.inl ⟨v, rfl⟩)
        simp only at hst
        cases hs : storeLoop arr v with
        | inr top => rw [hs] at hst; simp at hst
        | inl arr1 =>
          rw [hs] at hst
          have := ih cur arr1 st hst
          omega

/-- Each pass that parses an element moves the cursor by two bytes at least, so twice the
number of such passes is at most the number of bytes from the cursor to the end. -/
theorem driverStates_count (msg : List Nat) :
    ∀ (fuel head : Nat) (arr : List arraylist_t), head ≤ msg.length →
      2 * ((driverStates msg fuel head arr).filter (elementPass msg)).length
        ≤ msg.length - head := by
  intro fuel
  induction fuel with
  | zero => intro head arr _; simp [driverStates]
  | succ fuel ih =>
    intro head arr hle
    rw [driverStates, filter_length_cons]
    cases hp : parseElement msg head with
    | failed code =>
      simp only [elementPass, hp, Parsed.isFailed]
      simp
    | array narr cur =>
      have hb := parseElement_bound msg head _ cur hp (Or.inr ⟨narr, rfl⟩)
      have := ih cur (⟨narr, 0, []⟩ :: arr) hb.2
      simp only [elementPass, hp, Parsed.isFailed, Bool.not_false, if_true]
      omega
    | value v cur =>
      have hb := parseElement_bound msg head _ cur hp (Or.inl ⟨v, rfl⟩)
      simp only [elementPass, hp, Parsed.isFailed, Bool.not_false, if_true]
      cases hs : storeLoop arr v with
      | inr top => simp only [List.filter_nil, List.length_nil]; omega
      | inl arr1 =>
        have := ih cur arr1 hb.2
        simp only
        omega

/-- C20: progress and bounds.  For every buffer and every `offset ≤ |buffer|`, `decode`
terminates; when it succeeds, `offset < nextOffset ≤ |buffer|`; every pass of the driver that
parses an element (a value or an array header) moves the cursor strictly forward and keeps it
within the buffer; and the number of such passes is at most `|buffer| - offset`. -/
theorem decode_progress (msg : List Nat) (offset : Nat) (hoff : offset ≤ msg.length) :
    (∃ out, decode_lua msg offset = some out) ∧
    (∀ (v : Value) (next t : Nat), decode_lua msg offset = some (.done v next t) →
      offset < next ∧ next ≤ msg.length) ∧
    (∀ st ∈ driverStates msg (msg.length + 1) offset [], ∀ cur : Nat,
      ((∃ v, parseElement msg st.1 = .value v cur) ∨
        (∃ n, parseElement msg st.1 = .array n cur)) →
      st.1 < cur ∧ cur ≤ msg.length) ∧
    ((driverStates msg (msg.length + 1) offset []).filter (elementPass msg)).length
      ≤ msg.length - offset := by
  refine ⟨?_, ?_, ?_, ?_⟩
  · exact decodeLoop_total msg _ _ offset [] hoff (by omega)
  · intro v next t h
    have := decodeLoop_done_bound msg _ _ offset [] v next t h
    omega
  · intro st _ cur hcur
    have := parseElement_bound msg st.1 _ cur rfl (by
      rcases hcur with ⟨v, hv⟩ | ⟨n, hn⟩
      · exact Or.inl ⟨v, hv⟩
      · exact Or.inr ⟨n, hn⟩)
    omega
  · have := driverStates_count msg (msg.length + 1) offset [] hoff
    omega

/-- Instance of C20 on `*1\r\n:7\r\n` at offset 0: the decode succeeds with next offset 8, and
two passes parse an element. -/
theorem decode_progress_witness :
    decode_lua [42, 49, 13, 10, 58, 55, 13, 10] 0
      = some (.done (.table [.integer 7]) 8 42) ∧
    (0 < 8 ∧ 8 ≤ [42, 49, 13, 10, 58, 55, 13, 10].length) ∧
    ((driverStates [42, 49, 13, 10, 58, 55, 13, 10]
        ([42, 49, 13, 10, 58, 55, 13, 10].length + 1) 0 []).filter
      (elementPass [42, 49, 13, 10, 58, 55, 13, 10])).length
        ≤ [42, 49, 13, 10, 58, 55, 13, 10].length - 0 :=
  have h := decode_progress [42, 49, 13, 10, 58, 55, 13, 10] 0 (by decide)
  ⟨by decide, h.2.1 (.table [.integer 7]) 8 42 (by decide), h.2.2.2⟩

/-! ## The restricted round trip and `%d` (C18) -/

mutual
theorem restricted_plain : ∀ v : Value, restricted v = true → plain v = true
  | .nil, _ => by simp [plain]
  | .boolean b, h => by simp [restricted] at h
  | .other t, h => by simp [restricted] at h
  | .integer n, _ => by simp [plain]
  | .string s, h => by
    simp only [restricted, Bool.and_eq_true] at h
    simp only [plain]
    exact h.2
  | .table xs, h => by
    simp only [restricted] at h
    simpa [plain] using restrictedList_plain xs h
theorem restrictedList_plain : ∀ xs : List Value, restrictedList xs = true →
    plainList xs = true
  | [], _ => by simp [plainList]
  | x :: xs, h => by
    simp only [restrictedList, Bool.and_eq_true] at h
    have h1 := restricted_plain x h.1
    have h2 := restrictedList_plain xs h.2
    simp [plainList, h1, h2]
end

mutual
theorem restricted_encodes : ∀ v : Value, restricted v = true → ∃ bytes, encode2value v = .ok bytes
  | .nil, _ => ⟨_, by rw [encode2value]⟩
  | .boolean b, h => by simp [restricted] at h
  | .other t, h => by simp [restricted] at h
  | .integer n, _ => ⟨_, by rw [encode2value]⟩
  | .string s, h => by
    simp only [restricted, Bool.and_eq_true, decide_eq_true_eq, Bool.not_eq_true'] at h
    have hno : ¬ (CR ∈ s ∨ LF ∈ s) := by
      intro hc
      have := (any_crlf_iff s).mpr hc
      rw [h.1.1] at this
      exact Bool.false_ne_true this
    rw [encode2value, encode2string_eq s h.1.2, if_neg hno]
    split
    · exact ⟨_, rfl⟩
    · exact ⟨_, rfl⟩
  | .table xs, h => by
    simp only [restricted] at h
    obtain ⟨bs, hbs⟩ := restrictedList_encodes xs h
    rw [encode2value_table, hbs]
    exact ⟨_, rfl⟩
theorem restrictedList_encodes : ∀ xs : List Value, restrictedList xs = true →
    ∃ bytes, encode2values xs = .ok bytes
  | [], _ => ⟨[], by rw [encode2values]⟩
  | x :: xs, h => by
    simp only [restrictedList, Bool.and_eq_true] at h
    obtain ⟨b, hb⟩ := restricted_encodes x h.1
    obtain ⟨bs, hbs⟩ := restrictedList_encodes xs h.2
    rw [encode2values_cons, hb, hbs]
    exact ⟨_, rfl⟩
end

/-- The restricted values whose integers are all in the range of a C `int` do make the round
trip: `encode(v)` succeeds, and (the encoding being shorter than `2^63` bytes)
`decode(encode(v), 0)` succeeds with the value `v` and a next offset equal to the length of
the encoding. -/
theorem restricted_int_round_trip (v : Value) (hv : restricted v = true)
    (hint : intOnly v = true) :
    ∃ bytes, encode_lua [v] = .ok bytes ∧
      (bytes.length < 9223372036854775808 →
        decode_lua bytes 0 = some (.done v bytes.length (byteAt bytes 0))) := by
  obtain ⟨bytes, henc⟩ := restricted_encodes v hv
  refine ⟨bytes, henc, ?_⟩
  intro hlen
  have hplain := restricted_plain v hv
  have hdec : decoded v = v := (decoded_eq_iff_plain v).mpr hplain
  have hp := (passes_le_length v bytes henc).1
  have hfuel : bytes.length + 1 = passes v + (bytes.length + 1 - passes v) := by omega
  unfold decode_lua
  rw [hfuel, decodeLoop_encode2value v bytes [] bytes 0 (byteAt bytes 0) _ [] henc hint
    (Nat.zero_le _) (by simp) hlen, hdec]
  simp [resume, storeLoop]

/-- C18: the restricted round trip fails for every `int64_t` integer outside the range of a
C `int`.  Such an `n` is a restricted value and `encode(n)` succeeds, but `encode2number`
prints it with `%d`, which reads an `int`: the encoding is `:`, the decimal of the low 32 bits
of `n` and CRLF, and `decode` of it succeeds with that other integer. -/
theorem restricted_round_trip_truncates (n : Int) (h1 : LLONG_MIN ≤ n) (h2 : n ≤ LLONG_MAX)
    (h3 : n < INT_MIN ∨ INT_MAX < n) :
    restricted (.integer n) = true ∧
    encode_lua [.integer n] = .ok (58 :: decimal (vaArgInt n) ++ [CR, LF]) ∧
    decode_lua (58 :: decimal (vaArgInt n) ++ [CR, LF]) 0
      = some (.done (.integer (vaArgInt n)) (58 :: decimal (vaArgInt n) ++ [CR, LF]).length 58) ∧
    vaArgInt n ≠ n := by
  have hr := vaArgInt_range n
  refine ⟨by simp [restricted, h1, h2], rfl, ?_, ?_⟩
  · have hp := parseElement_integer (vaArgInt n) []
      (by have := hr.1; simp only [INT_MIN, LLONG_MIN] at *; omega)
      (by have := hr.2; simp only [INT_MAX, LLONG_MAX] at *; omega)
    have hd := decode_lua_value _ 0 _ _ hp
    simp only [List.cons_append, List.length_cons, List.length_append, List.length_nil,
      byteAt_cons_zero] at hd ⊢
    exact hd
  · intro he
    rw [he] at hr
    rcases h3 with h3 | h3
    · exact absurd hr.1 (not_le.mpr h3)
    · exact absurd hr.2 (not_le.mpr h3)

/-- Instance of C18 at `n = 2147483648`: the encoding is `:-2147483648` and CRLF, which
decodes to the integer `-2147483648`. -/
theorem restricted_round_trip_truncates_witness :
    restricted (.integer 2147483648) = true ∧
    encode_lua [.integer 2147483648]
      = .ok [58, 45, 50, 49, 52, 55, 52, 56, 51, 54, 52, 56, 13, 10] ∧
    decode_lua [58, 45, 50, 49, 52, 55, 52, 56, 51, 54, 52, 56, 13, 10] 0
      = some (.done (.integer (-2147483648)) 14 58) ∧
    vaArgInt 2147483648 ≠ 2147483648 :=
  restricted_round_trip_truncates 2147483648 (by decide) (by decide) (by decide)

/-! ## The driver and the recursive decoder (C17) -/

/-- C19: a successful decode can be changed by bytes that arrive later. The buffer
`: CRLF` decodes to the integer 0 with next offset 3; followed by `5 CRLF` the same call
gives the integer 5 with next offset 6, and followed by `5` alone it asks for more bytes.
The number is read by `strtoll`, which skips the line end as white space and reads the
digits after it. -/
theorem success_changed_by_later_bytes :
    decode_lua [58, 13, 10] 0 = some (.done (.integer 0) 3 58) ∧
      decode_lua ([58, 13, 10] ++ [53, 13, 10]) 0 = some (.done (.integer 5) 6 58) ∧
      decode_lua ([58, 13, 10] ++ [53]) 0 = some (.error RESP_EAGAIN) := by
  decide

/-! ## Completing a buffer that asks for more bytes (C3) -/

theorem fillers_length (n : Nat) : (fillers n).length = 4 * n := by
  induction n with
  | zero => rfl
  | succ n ih => simp only [fillers, List.length_cons, ih]; omega

theorem inert_colon : inert 58 := by
  unfold inert
  decide

/-- Bytes appended to the subject of `strtoll` do not change its result when they are
elements `:0\r\n`. -/
theorem strtoll_append_fillers (s : List Nat) (m : Nat) :
    strtoll (s ++ fillers m) = strtoll s := by
  cases m with
  | zero => simp [fillers]
  | succ m => exact strtoll_append_inert s 58 _ inert_colon

end Resp
